import Mathlib

/-!
# Verification of the tspdt-next-1k ordering pipeline

This file gives a shallow embedding of the core pipeline of the
repository (`sort.py`, `bruteforce.py`, `moviedata.py`) and proves or
refutes the frozen claims about it.

Modelling notes:
* A csv row (`sort.py` works on `dict` rows) is a `Row` structure.  The
  fields `Rank by year`, `Rank`, `Res`, `BeforeRank`, `AfterRank` hold
  `'-'` or an integer in the program; they are modelled as `Option Int`
  (`none` = `'-'` / absent key).  `After` holds 1-based row ids
  (`int(r['Hash'])`); `AfterRows` holds aliases of the very row dicts, so
  it is modelled by looking the ids up in the current row list (faithful
  whenever ids are unique, which the program relies on throughout).
* Ranks are stored as strings in the program and compared/sorted as
  strings in a few places; every rank the program handles is a 4-digit
  number (1001..2000), for which string order and numeric order agree,
  so ranks are modelled as integers.
* Python's `sorted` is stable; it is modelled by `List.insertionSort`,
  which inserts an element before the first element it is `≤` to and is
  therefore stable as well.
* Raising an exception is modelled by `Except`.
-/

namespace Tspdt

/-- A row of the working table of `sort.py` / `bruteforce.py`. -/
structure Row where
  hash : Nat
  year : Int
  rby : Option Int := none
  rank : Option Int := none
  after : List Nat := []
  res : Option Int := none
  beforeRank : Option Int := none
  afterRank : Option Int := none
  between : Option (Int × Int) := none
deriving Repr, DecidableEq

/-- `has_rank(r)`: the `Rank` field is not `'-'`. -/
def hasRank (r : Row) : Bool := r.rank.isSome

/-- Fetch the row aliased by an id stored in an `After` field. -/
def lookupRow (st : List Row) (h : Nat) : Option Row :=
  st.find? (fun r => r.hash == h)

/-- Mutate the row with the given id in place. -/
def updRow (st : List Row) (h : Nat) (f : Row → Row) : List Row :=
  st.map fun r => if r.hash == h then f r else r

/-- `set_after(r, antecedent)`: append the antecedent to `r`'s `After`
list unless it is already there. -/
def setAfter (st : List Row) (target ante : Nat) : List Row :=
  updRow st target fun r =>
    if ante ∈ r.after then r else { r with after := r.after ++ [ante] }

/-- The `After` list of the row with id `h` (empty if no such row). -/
def afterOf (st : List Row) (h : Nat) : List Nat :=
  ((lookupRow st h).map (·.after)).getD []

/-- Whether the row with id `h` is ranked (false if no such row). -/
def hasRankAt (st : List Row) (h : Nat) : Bool :=
  ((lookupRow st h).map (hasRank ·)).getD false

/-- Errors raised by the pipeline (`raise Exception(...)`,
`StopIteration`, `IndexError`, toposort's cycle error). -/
inductive SortErr where
  | rbyNotPositive (h : Nat)
  | wrongRby (h : Nat)
  | rankNotInRuns (h : Nat)
  | noRowWithRank (v : Int)
  | cyclic (remaining : List Nat)
  | indexOutOfRange (h : Nat)
deriving Repr, DecidableEq

deriving instance DecidableEq for Except

/-- `sorted(int(r['Rank']) for r in rows if has_rank(r))`. -/
def sortRanks (rows : List Row) : List Int :=
  List.insertionSort (· ≤ ·) (rows.filterMap (·.rank))

/-- `consecutive_runs`: split a list of numbers into maximal runs of
consecutive integers, e.g. `[2,3,4,7,12,13] -> [[2,3,4],[7],[12,13]]`. -/
def consecutiveRuns : List Int → List (List Int)
  | [] => []
  | x :: xs =>
    match consecutiveRuns xs with
    | [] => [[x]]
    | [] :: rest => [x] :: rest
    | (y :: ys) :: rest =>
      if y = x + 1 then (x :: y :: ys) :: rest else [x] :: (y :: ys) :: rest

/-- `row_by_field(rows, 'Rank', str(v))`: the first row whose `Rank`
field equals `v`; `StopIteration` if none. -/
def rowByRank (rows : List Row) (v : Int) : Except SortErr Row :=
  match rows.find? (fun r => r.rank == some v) with
  | some r => .ok r
  | none => .error (.noRowWithRank v)

/-- `max_ranked_after_factory(rows)(row, guard)`: adjust a ranked `row`
to the row holding the last rank of the consecutive occupied-rank run
containing `row`'s rank, but only when `row` is ranked and `guard` is
not; otherwise return `row` itself. -/
def mra (rows : List Row) (runs : List (List Int)) (row guard : Row) :
    Except SortErr Row :=
  if ¬ hasRank row ∨ hasRank guard then .ok row
  else
    match row.rank with
    | none => .ok row
    | some rk =>
      match runs.find? (fun run => run.contains rk) with
      | none => .error (.rankNotInRuns row.hash)
      | some run =>
        match run.getLast? with
        | none => .error (.rankNotInRuns row.hash)
        | some lastV => if lastV = rk then .ok row else rowByRank rows lastV

/-- The inner loop of `compute_edges_by_year` over one year group.
`prev` carries the last row seen with a `Rank by year` value together
with that value; `sd` is the `seen_dash` flag. -/
def goGroup (rows : List Row) (runs : List (List Int)) :
    List Row → List Row → Option (Int × Row) → Bool →
    Except SortErr (List Row)
  | [], st, _, _ => .ok st
  | r :: rest, st, prev, sd =>
    match r.rby with
    | some v =>
      if v ≤ 0 then .error (.rbyNotPositive r.hash)
      else if !sd && (match prev with
                      | none => true
                      | some pv => v == pv.1 + 1) then
        match prev with
        | none => goGroup rows runs rest st (some (v, r)) sd
        | some pv => do
          let a ← mra rows runs pv.2 r
          goGroup rows runs rest (setAfter st r.hash a.hash) (some (v, r)) sd
      else .error (.wrongRby r.hash)
    | none =>
      match prev with
      | some pv => do
        let a ← mra rows runs pv.2 r
        goGroup rows runs rest (setAfter st r.hash a.hash) prev true
      | none => goGroup rows runs rest st prev true

/-- Split a row list into maximal chunks of equal `Year` (the
`itertools.groupby` underlying `grouped_dict`). -/
def chunkByYear : List Row → List (Int × List Row)
  | [] => []
  | r :: rest =>
    match chunkByYear rest with
    | [] => [(r.year, [r])]
    | (y, g) :: gs =>
      if y = r.year then (y, r :: g) :: gs
      else (r.year, [r]) :: (y, g) :: gs

/-- Keys of an association list in first-occurrence order, without
repetitions (Python dict key order). -/
def firstOccKeys : List (Int × List Row) → List Int
  | [] => []
  | (y, _) :: rest => y :: (firstOccKeys rest).filter (· ≠ y)

/-- The value the Python dict comprehension keeps for a key: the last
chunk carrying it. -/
def lastChunk (chunks : List (Int × List Row)) (y : Int) : List Row :=
  (((chunks.filter (fun c => c.1 == y)).getLast?).map (·.2)).getD []

/-- `grouped_dict(rows, 'Year')`: an ordered dict, so for a duplicated
key the last chunk wins while the key keeps its first position. -/
def groupedDict (chunks : List (Int × List Row)) : List (Int × List Row) :=
  (firstOccKeys chunks).map (fun y => (y, lastChunk chunks y))

/-- `compute_edges_by_year(rows)`. -/
def computeEdgesByYear (rows : List Row) : Except SortErr (List Row) :=
  let runs := consecutiveRuns (sortRanks rows)
  let groups := groupedDict (chunkByYear rows)
  groups.foldlM (fun st g => goGroup rows runs g.2 st none false) rows

/-- `pairwise`: `s -> (s0,s1), (s1,s2), ...`. -/
def pairwiseList {α : Type} : List α → List (α × α)
  | a :: b :: rest => (a, b) :: pairwiseList (b :: rest)
  | _ => []

/-- Sort key used for ranked rows (`itemgetter('Rank')`; all ranks the
program handles are 4-digit, where string order is numeric order). -/
def rankKey (r : Row) : Int := r.rank.getD 0

/-- The order relation of `sorted(..., key=itemgetter('Rank'))`. -/
def rankLe (a b : Row) : Prop := rankKey a ≤ rankKey b

instance : DecidableRel rankLe := fun a b => by
  unfold rankLe; infer_instance

instance : IsTotal Row rankLe := ⟨fun a b => le_total (rankKey a) (rankKey b)⟩

instance : IsTrans Row rankLe := ⟨fun _ _ _ h h' => le_trans h h'⟩

/-- `compute_edges_by_rank(rows)`: chain the ranked rows in rank order. -/
def computeEdgesByRank (st : List Row) : List Row :=
  let sortedR := List.insertionSort rankLe (st.filter (hasRank ·))
  (pairwiseList sortedR).foldl (fun s p => setAfter s p.2.hash p.1.hash) st

/-- The effect of one `remove_extra_afters` iteration on one row: if it
has more than one ranked direct predecessor, drop all ranked
predecessors except the one sorting last by rank (`sorted(...)[:-1]`
are dropped; membership is row equality, modelled by id equality). -/
def reduceRow (st : List Row) (r : Row) : Row :=
  let prevRows := r.after.filterMap (lookupRow st)
  let rankedPrev := prevRows.filter (hasRank ·)
  if rankedPrev.length > 1 then
    let sortedP := List.insertionSort rankLe rankedPrev
    let beforeClosest := sortedP.dropLast
    let kept := prevRows.filter
      (fun r2 => ¬ beforeClosest.any (fun b => b.hash == r2.hash))
    { r with after := kept.map (·.hash) }
  else r

/-- `remove_extra_afters(rows)`.  Each iteration only reads immutable
fields of other rows and writes the iterated row itself, so the loop is
a map. -/
def removeExtraAfters (st : List Row) : List Row :=
  st.map (reduceRow st)

/-- The derived successor relation: ids of the rows that list `h` as a
predecessor (`sort.py` stores no successor lists; this is the inverse
of the `After` relation). -/
def succOf (st : List Row) (h : Nat) : List Nat :=
  (st.filter (fun r => h ∈ r.after)).map (·.hash)

/-- The predecessor rows `remove_extra_afters` keeps for a row whose
direct predecessors are `pr`. -/
def keptRows (pr : List Row) : List Row :=
  pr.filter (fun r2 =>
    ¬ (List.insertionSort rankLe (pr.filter (hasRank ·))).dropLast.any
      (fun b => b.hash == r2.hash))

/-- Four rows exercising the Edge Reducer: `#4` has the ranked direct
predecessors `#1` (rank 1001) and `#2` (rank 1005) and the unranked
`#3` (claim C7). -/
def reducedRows : List Row :=
  [ { hash := 1, year := 1970, rank := some 1001 },
    { hash := 2, year := 1970, rank := some 1005 },
    { hash := 3, year := 1970 },
    { hash := 4, year := 1970, after := [1, 3, 2] } ]

/-! ## The Range Resolver (`bruteforce.create_between_col`) -/

/-- The (antecedent id, rank) pairs one ranked row `r` contributes to
the first loop: `(ant, r.rank)` for every unranked `ant` in
`get_after(r)`. -/
def upperPairsRow (st : List Row) (r : Row) : List (Nat × Int) :=
  match r.rank with
  | none => []
  | some v =>
    ((r.after.filterMap (lookupRow st)).filter (fun a => ¬ hasRank a)).map
      (fun a => (a.hash, v))

/-- The (antecedent id, rank) pairs of the first loop of
`create_between_col`, in iteration order. -/
def upperPairs (st : List Row) : List (Nat × Int) :=
  st.flatMap (upperPairsRow st)

/-- One step of the running minimum kept in `BeforeRank`: overwrite
when the column is absent or larger than the new value (writing the old
value back otherwise is observationally the Python no-op). -/
def minStep (acc : Option Int) (v : Int) : Option Int :=
  match acc with
  | none => some v
  | some b => if b > v then some v else some b

/-- One `BeforeRank` update: keep the minimum. -/
def applyBeforeRank (st : List Row) (p : Nat × Int) : List Row :=
  updRow st p.1 fun a => { a with beforeRank := minStep a.beforeRank p.2 }

/-- The (row id, antecedent rank) pairs one unranked row `r`
contributes to the second loop: `(r, ant.rank)` for every ranked `ant`
in `get_after(r)`. -/
def lowerPairsRow (st : List Row) (r : Row) : List (Nat × Int) :=
  match r.rank with
  | some _ => []
  | none =>
    (r.after.filterMap (lookupRow st)).filterMap
      (fun a => a.rank.map (fun v => (r.hash, v)))

/-- The (row id, antecedent rank) pairs of the second loop of
`create_between_col`, in iteration order. -/
def lowerPairs (st : List Row) : List (Nat × Int) :=
  st.flatMap (lowerPairsRow st)

/-- One step of the running maximum kept in `AfterRank`. -/
def maxStep (acc : Option Int) (v : Int) : Option Int :=
  match acc with
  | none => some v
  | some a => if a < v then some v else some a

/-- One `AfterRank` update: keep the maximum. -/
def applyAfterRank (st : List Row) (p : Nat × Int) : List Row :=
  updRow st p.1 fun r => { r with afterRank := maxStep r.afterRank p.2 }

/-- The per-row effect of the third loop of `create_between_col`. -/
def fillRow (r : Row) : Row :=
  match r.beforeRank, r.afterRank with
  | some b, some a => { r with between := some (a + 1, b - 1) }
  | some b, none => { r with between := some (1001, b - 1) }
  | none, some a => { r with between := some (a + 1, 2000) }
  | none, none => r

/-- The third loop of `create_between_col`: fill the `Between` column
from `BeforeRank` / `AfterRank`. -/
def fillBetween (st : List Row) : List Row :=
  st.map fillRow

/-- `create_between_col(table)` restricted to its effect on the rows. -/
def createBetweenCol (st : List Row) : List Row :=
  let st1 := (upperPairs st).foldl applyBeforeRank st
  let st2 := (lowerPairs st1).foldl applyAfterRank st1
  fillBetween st2

/-! ## Topological layering (`get_graph`, `set_approx_pos`,
`shift_rows_with_no_upper_limit`) -/

/-- `get_graph(rows)`: `{int(r['Hash']): set(r['After'])}` for rows with
a non-empty `After`. -/
def getGraph (st : List Row) : List (Nat × List Nat) :=
  (st.filter (fun r => ¬ r.after.isEmpty)).map (fun r => (r.hash, r.after))

/-- Remove duplicate entries keeping first occurrences (set semantics of
the toposort library's extra-items set). -/
def dedupNat : List Nat → List Nat
  | [] => []
  | x :: xs => x :: (dedupNat xs).filter (· ≠ x)

/-- Modelled from the spec: `lib.toposort` is not under `src/`.  Section
4.3 describes it as a generation-based (Kahn) topological sort that
repeatedly takes the set of items whose dependencies have all been
emitted.  The standard library behaviour is modelled: self-dependencies
are discarded, items that appear only as dependencies are added with no
dependencies of their own, and a non-empty remainder with no eligible
item is a cycle error.  This prepares the data. -/
def topoPrep (data : List (Nat × List Nat)) : List (Nat × List Nat) :=
  let data := data.map (fun kv => (kv.1, kv.2.filter (· ≠ kv.1)))
  let keys := data.map (·.1)
  let extra := dedupNat ((data.flatMap (·.2)).filter (fun n => ¬ keys.contains n))
  data ++ extra.map (fun n => (n, ([] : List Nat)))

/-- Modelled from the spec: the keys a `lib.toposort` round emits —
those with no remaining dependencies. -/
def readyKeys (data : List (Nat × List Nat)) : List Nat :=
  (data.filter (fun kv => kv.2.isEmpty)).map (·.1)

/-- Modelled from the spec: one `lib.toposort` round removes the
emitted keys and scrubs them from every dependency set. -/
def topoStep (data : List (Nat × List Nat)) (ordered : List Nat) :
    List (Nat × List Nat) :=
  (data.filter (fun kv => ¬ ordered.contains kv.1)).map
    (fun kv => (kv.1, kv.2.filter (fun d => ¬ ordered.contains d)))

/-- Modelled from the spec: the generation loop of `lib.toposort`.
Each round emits the keys with no remaining dependencies and removes
them everywhere; fuel bounds the rounds. -/
def topoLoop : Nat → List (Nat × List Nat) → List (List Nat) →
    Except SortErr (List (List Nat))
  | 0, data, acc =>
    if data.isEmpty then .ok acc.reverse
    else .error (.cyclic (data.map (·.1)))
  | fuel + 1, data, acc =>
    if data.isEmpty then .ok acc.reverse
    else
      if (readyKeys data).isEmpty then .error (.cyclic (data.map (·.1)))
      else
        topoLoop fuel (topoStep data (readyKeys data)) (readyKeys data :: acc)

/-- Modelled from the spec: `toposort(data)` as a list of generations. -/
def toposortModel (data : List (Nat × List Nat)) :
    Except SortErr (List (List Nat)) :=
  let d := topoPrep data
  topoLoop (d.length + 1) d []

/-- `rows[index - 1]['Res'] = i` with Python list-index semantics: a
negative index counts from the end, an out-of-range index raises. -/
def setResAt (s : List Row) (h : Nat) (i : Int) : Except SortErr (List Row) :=
  let n : Int := s.length
  let idx0 : Int := (h : Int) - 1
  let j : Int := if 0 ≤ idx0 then idx0 else n + idx0
  if 0 ≤ j ∧ j < n then
    match s.get? j.toNat with
    | some row => .ok (s.set j.toNat { row with res := some i })
    | none => .error (.indexOutOfRange h)
  else .error (.indexOutOfRange h)

/-- `set_approx_pos(rows)`: write layer number `i` (starting at 1) onto
`rows[index - 1]` for every vertex `index` of layer `i`. -/
def setApproxPos (st : List Row) : Except SortErr (List Row) := do
  let layers ← toposortModel (getGraph st)
  let r ← layers.foldlM
    (fun (acc : List Row × Int) layer => do
      let s ← layer.foldlM (fun s h => setResAt s h acc.2) acc.1
      pure (s, acc.2 + 1))
    (st, (1 : Int))
  pure r.1

/-- All ids mentioned in some row's `After` field. -/
def referencedIds (st : List Row) : List Nat :=
  (st.filter (fun r => ¬ r.after.isEmpty)).flatMap (·.after)

/-- The per-row effect of `shift_rows_with_no_upper_limit`: a row in
nobody's `After` with a `Res` value and no rank gets `Res += 1000`. -/
def shiftRow (ref : List Nat) (r : Row) : Row :=
  if ¬ ref.contains r.hash then
    match r.res, r.rank with
    | some v, none => { r with res := some (v + 1000) }
    | _, _ => r
  else r

/-- `shift_rows_with_no_upper_limit(rows)`: rows that are in nobody's
`After`, have a `Res` value and no rank get `Res += 1000`. -/
def shiftRows (st : List Row) : List Row :=
  st.map (shiftRow (referencedIds st))

/-! ## The movie data model (`moviedata.py`) -/

/-- A `Movie` as far as ingestion is concerned (the edge lists and range
only get default values during `__init__`). -/
structure MovieRec where
  title : String
  year : Int
  rby : Option Int := none
  rank : Option Int := none
deriving Repr, DecidableEq

/-- Errors raised by `Movie.__init__` (the `year` type error is ruled
out by typing). -/
inductive MovieErr where
  | invalidRby (title : String)
  | invalidRank (title : String)
deriving Repr, DecidableEq

/-- `Movie.__init__` validation: `1 <= rby <= 25` and
`1001 <= rank <= 2000` when set. -/
def mkMovie (title : String) (year : Int) (rby rank : Option Int) :
    Except MovieErr MovieRec :=
  if (match rby with | some v => !(1 ≤ v && v ≤ 25) | none => false) then
    .error (.invalidRby title)
  else if (match rank with | some v => !(1001 ≤ v && v ≤ 2000) | none => false) then
    .error (.invalidRank title)
  else .ok ⟨title, year, rby, rank⟩

/-- Python truthiness of an optional integer field (`None` and `0` are
falsy). -/
def pyFalsy : Option Int → Bool
  | none => true
  | some v => v == 0

/-- The `MovieList.sort` key `(m.year, m.rby or 99, m.rank or 9999)`. -/
def movieKey (m : MovieRec) : Int × Int × Int :=
  (m.year,
   (if pyFalsy m.rby then 99 else m.rby.getD 0),
   (if pyFalsy m.rank then 9999 else m.rank.getD 0))

/-- Lexicographic order on the sort key. -/
def movieLe (a b : MovieRec) : Prop :=
  (movieKey a).1 < (movieKey b).1 ∨
  ((movieKey a).1 = (movieKey b).1 ∧
   ((movieKey a).2.1 < (movieKey b).2.1 ∨
    ((movieKey a).2.1 = (movieKey b).2.1 ∧ (movieKey a).2.2 ≤ (movieKey b).2.2)))

instance : DecidableRel movieLe := fun a b => by
  unfold movieLe; infer_instance

/-- The state `MovieList.__init__` builds: sorted movies, the unranked
ones, and the sorted list of occupied ranks. -/
structure MovieListModel where
  movies : List MovieRec
  unranked : List MovieRec
  ranks : List Int
deriving Repr, DecidableEq

/-- `MovieList.__init__(it)`: sort, then collect unranked movies and
occupied ranks.  No duplicate-rank check appears anywhere. -/
def movieListInit (it : List MovieRec) : MovieListModel :=
  let movies := List.insertionSort movieLe it
  { movies := movies
    unranked := movies.filter (fun m => pyFalsy m.rank)
    ranks := List.insertionSort (· ≤ ·)
      (movies.filterMap (fun m => if pyFalsy m.rank then none else m.rank)) }

/-- Full ingestion: validate each raw record as `Movie.__init__` does,
then build the `MovieList`. -/
def ingest (xs : List (String × Int × Option Int × Option Int)) :
    Except MovieErr MovieListModel := do
  let ms ← xs.mapM (fun x => mkMovie x.1 x.2.1 x.2.2.1 x.2.2.2)
  pure (movieListInit ms)

/-! ## Concrete inputs used by the claims -/

/-- Scenario A of the spec (claim C2), in the order the pipeline input
is sorted (`year`, then `rby or 99`, then `rank or 9999`): item #2
(groupSeq 1), #3 (groupSeq 2), #1 (rank 1001), #4 (rank 1004). -/
def scRows : List Row :=
  [ { hash := 2, year := 2000, rby := some 1 },
    { hash := 3, year := 2000, rby := some 2 },
    { hash := 1, year := 2000, rank := some 1001 },
    { hash := 4, year := 2000, rank := some 1004 } ]

/-- Edge construction (both evidence sources) on Scenario A. -/
def scEdges : Except SortErr (List Row) :=
  (computeEdgesByYear scRows).map computeEdgesByRank

/-- Edge construction followed by range resolution on Scenario A. -/
def scResolved : Except SortErr (List Row) := scEdges.map createBetweenCol

/-- A predecessor chain `#1(rank 1001) → #2 → #3 → #4(rank 1010)` with
`#2`, `#3` unranked, given directly by its `After` lists (claim C1). -/
def chainRows : List Row :=
  [ { hash := 1, year := 1990, rank := some 1001 },
    { hash := 2, year := 1990, after := [1] },
    { hash := 3, year := 1990, after := [2] },
    { hash := 4, year := 1990, rank := some 1010, after := [3] } ]

/-- A year group whose `groupSeq` values are `[2, 3]`: contiguous but
not starting at 1 (claim C5). -/
def gapRows : List Row :=
  [ { hash := 1, year := 1999, rby := some 2 },
    { hash := 2, year := 1999, rby := some 3 } ]

/-- A year group of two consecutive `groupSeq` rows that both carry a
global rank (claim C6). -/
def bothRankedRows : List Row :=
  [ { hash := 1, year := 1995, rby := some 1, rank := some 1001 },
    { hash := 2, year := 1995, rby := some 2, rank := some 1002 } ]

/-- Three rows for claim C8: `#1` ranked, `#2` unranked with the single
edge `#1 → #2`, `#3` unranked with no edges at all. -/
def evidenceRows : List Row :=
  [ { hash := 1, year := 1980, rank := some 1001 },
    { hash := 2, year := 1980, after := [1] },
    { hash := 3, year := 1980 } ]

/-- Layering plus post-pass on `evidenceRows`. -/
def evidenceOut : Except SortErr (List Row) :=
  (setApproxPos evidenceRows).map shiftRows

/-- Two movie records that both claim global rank 1500 (claim C4). -/
def dupRankInput : List (String × Int × Option Int × Option Int) :=
  [("A", 2000, none, some 1500), ("B", 2001, none, some 1500)]

/-- The success predicate of the per-group loop of
`compute_edges_by_year`, divorced from its state effects (the loop only
fails on `Rank by year` validation; its `set_after` effects never
fail once `max_ranked_after` is total on rows of the table). -/
def acceptGroup : Option Int → Bool → List Row → Bool
  | _, _, [] => true
  | prev, sd, r :: rest =>
    match r.rby with
    | some v =>
      if v ≤ 0 then false
      else if !sd && (match prev with
                      | none => true
                      | some pv => v == pv + 1) then
        acceptGroup (some v) sd rest
      else false
    | none => acceptGroup prev true rest

/-- Each value is its predecessor plus one. -/
def consecB : List Int → Bool
  | [] => true
  | [_] => true
  | a :: b :: t => (b == a + 1) && consecB (b :: t)

/-- `consecB` with an optional previously seen value in front. -/
def consecFromB : Option Int → List Int → Bool
  | _, [] => true
  | none, a :: t => consecB (a :: t)
  | some p, a :: t => (a == p + 1) && consecB (a :: t)

/-- The `Rank by year` values of the leading run of carrier rows. -/
def carrierRbys (g : List Row) : List Int :=
  (g.takeWhile (fun r => r.rby.isSome)).filterMap (·.rby)

/-- The declarative validity of one year group: carriers form a prefix
whose values are positive and increase by exactly one (the first value
is unconstrained), and no carrier follows a dash row. -/
def groupOkB (g : List Row) : Bool :=
  ((g.dropWhile (fun r => r.rby.isSome)).all (fun r => r.rby.isNone))
    && (carrierRbys g).all (fun v => 0 < v)
    && consecB (carrierRbys g)

/-- The identity-and-rank view of a row. -/
def hashRank (r : Row) : Nat × Option Int := (r.hash, r.rank)

/-- The fields of a row that the edge builders and the resolver read
(everything except the annotation columns). -/
def coreRow (r : Row) : Nat × Int × Option Int × Option Int × List Nat :=
  (r.hash, r.year, r.rby, r.rank, r.after)

/-- The running minimum the first `create_between_col` loop maintains
in `BeforeRank`. -/
def foldMinOpt (init : Option Int) (vs : List Int) : Option Int :=
  vs.foldl minStep init

/-- The running maximum the second `create_between_col` loop maintains
in `AfterRank`. -/
def foldMaxOpt (init : Option Int) (vs : List Int) : Option Int :=
  vs.foldl maxStep init

/-- The rank one row contributes to `succRanks` (its rank, when it has
one and lists `h` as predecessor). -/
def succRankRow (h : Nat) (r : Row) : Option Int :=
  match r.rank with
  | none => none
  | some v => if h ∈ r.after then some v else none

/-- Ranks of the ranked rows that have the row with id `h` in their
`After` list (`h`'s ranked direct successors), in row order. -/
def succRanks (st : List Row) (h : Nat) : List Int :=
  st.filterMap (succRankRow h)

/-- Ranks of the ranked rows aliased by an `After` list (the ranked
direct predecessors), in `After` order. -/
def predRanks (st : List Row) (l : List Nat) : List Int :=
  (l.filterMap (lookupRow st)).filterMap (·.rank)

/-- The update values a pair list holds for the row with id `h`, in
order. -/
def targetedVals (ps : List (Nat × Int)) (h : Nat) : List Int :=
  (ps.filter (fun p => p.1 == h)).map (·.2)

/-- The accumulated effect of the first loop on one row. -/
def minWriteRow (ps : List (Nat × Int)) (r : Row) : Row :=
  { r with beforeRank := foldMinOpt r.beforeRank (targetedVals ps r.hash) }

/-- The accumulated effect of the second loop on one row. -/
def maxWriteRow (ps : List (Nat × Int)) (r : Row) : Row :=
  { r with afterRank := foldMaxOpt r.afterRank (targetedVals ps r.hash) }

/-- The `Between` value the third `create_between_col` loop derives
from the two bound columns. -/
def mkBetween : Option Int → Option Int → Option (Int × Int)
  | some b, some a => some (a + 1, b - 1)
  | some b, none => some (1001, b - 1)
  | none, some a => some (a + 1, 2000)
  | none, none => none

/-! ## The group-sequence edges as data (claims C6, C9) -/

/-- The (target id, antecedent id) edges the per-group loop adds, in
order, computed without threading the table state (`max_ranked_after`
only reads the immutable input `rows`). -/
def expectedEdges (rows : List Row) (runs : List (List Int)) :
    List Row → Option (Int × Row) → Bool → Except SortErr (List (Nat × Nat))
  | [], _, _ => .ok []
  | r :: rest, prev, sd =>
    match r.rby with
    | some v =>
      if v ≤ 0 then .error (.rbyNotPositive r.hash)
      else if !sd && (match prev with
                      | none => true
                      | some pv => v == pv.1 + 1) then
        match prev with
        | none => expectedEdges rows runs rest (some (v, r)) sd
        | some pv => do
          let a ← mra rows runs pv.2 r
          let es ← expectedEdges rows runs rest (some (v, r)) sd
          pure ((r.hash, a.hash) :: es)
      else .error (.wrongRby r.hash)
    | none =>
      match prev with
      | some pv => do
        let a ← mra rows runs pv.2 r
        let es ← expectedEdges rows runs rest prev true
        pure ((r.hash, a.hash) :: es)
      | none => expectedEdges rows runs rest prev true

/-- Replay a list of (target id, antecedent id) edges with
`set_after`. -/
def foldSet (st : List Row) (es : List (Nat × Nat)) : List Row :=
  es.foldl (fun s e => setAfter s e.1 e.2) st

/-- All group-sequence edges of the whole table, groups in order. -/
def allYearEdges (rows : List Row) : Except SortErr (List (Nat × Nat)) := do
  let ess ← (groupedDict (chunkByYear rows)).mapM
    (fun c => expectedEdges rows (consecutiveRuns (sortRanks rows)) c.2
      none false)
  pure ess.flatten

/-- The leading carrier rows (those with a `Rank by year`) of a year
group. -/
def carriersOf (g : List Row) : List Row :=
  g.takeWhile (fun r => r.rby.isSome)

/-- The rows of a year group from the first dash row on. -/
def dashesOf (g : List Row) : List Row :=
  g.dropWhile (fun r => r.rby.isSome)

/-- The `prev` row paired with the dash rows of a group: the last
carrier of the group, or the carrier a surrounding context supplies. -/
def lastCarrier (prev : Option (Int × Row)) (g : List Row) : Option Row :=
  match (carriersOf g).getLast? with
  | some c => some c
  | none => prev.map (·.2)

/-- The edges of `compute_edges_by_rank` as (target id, antecedent id)
data. -/
def rankEdges (st : List Row) : List (Nat × Nat) :=
  (pairwiseList (List.insertionSort rankLe (st.filter (hasRank ·)))).map
    (fun p => (p.2.hash, p.1.hash))

/-- How many of the rows aliased by a list of ids are unranked (the
`unranked_prev` count of `get_chains`). -/
def unrankedCount (st : List Row) (l : List Nat) : Nat :=
  ((l.filterMap (lookupRow st)).filter (fun a => ¬ hasRank a)).length

/-- How many of the rows aliased by a list of ids are ranked (the
`ranked_prev` count of `get_chains`). -/
def rankedCount (st : List Row) (l : List Nat) : Nat :=
  ((l.filterMap (lookupRow st)).filter (hasRank ·)).length

/-- The table `compute_edges_by_year` produces on the Scenario A rows:
`#3` is ordered after `#2` (consecutive carriers), and the dash rows
`#1`, `#4` are both ordered after the last carrier `#3`. -/
def scYearOut : List Row :=
  [ { hash := 2, year := 2000, rby := some 1 },
    { hash := 3, year := 2000, rby := some 2, after := [2] },
    { hash := 1, year := 2000, rank := some 1001, after := [3] },
    { hash := 4, year := 2000, rank := some 1004, after := [3] } ]

/-- The table `set_approx_pos` produces on `evidenceRows`: the graph
holds `#2 -> #1`, so layer 1 is `{#1}` and layer 2 is `{#2}`; the
edge-free `#3` is not in the graph and keeps `Res = '-'`. -/
def evidenceResolved : List Row :=
  [ { hash := 1, year := 1980, rank := some 1001, res := some 1 },
    { hash := 2, year := 1980, after := [1], res := some 2 },
    { hash := 3, year := 1980 } ]

end Tspdt

namespace Tspdt

/-! ## Basic preservation lemmas -/

theorem updRow_length (st : List Row) (h : Nat) (f : Row → Row) :
    (updRow st h f).length = st.length := by
  simp [updRow]

theorem updRow_get? (st : List Row) (h : Nat) (f : Row → Row) (i : Nat) :
    (updRow st h f).get? i
      = (st.get? i).map (fun r => if r.hash == h then f r else r) := by
  simp [updRow, List.getElem?_map]

theorem applyBeforeRank_length (st : List Row) (p : Nat × Int) :
    (applyBeforeRank st p).length = st.length := by
  rw [applyBeforeRank, updRow_length]

theorem applyAfterRank_length (st : List Row) (p : Nat × Int) :
    (applyAfterRank st p).length = st.length := by
  rw [applyAfterRank, updRow_length]

theorem foldl_row_length {β : Type} {g : List Row → β → List Row}
    (hg : ∀ st p, (g st p).length = st.length) :
    ∀ (ps : List β) (st : List Row), (ps.foldl g st).length = st.length := by
  intro ps
  induction ps with
  | nil => intro st; rfl
  | cons p ps ih => intro st; rw [List.foldl_cons, ih, hg]

theorem applyBeforeRank_hashRank (st : List Row) (p : Nat × Int) (i : Nat) :
    ((applyBeforeRank st p).get? i).map hashRank = (st.get? i).map hashRank := by
  rw [applyBeforeRank, updRow_get?]
  cases st.get? i with
  | none => rfl
  | some r =>
    simp only [Option.map_some']
    split <;> rfl

theorem applyAfterRank_hashRank (st : List Row) (p : Nat × Int) (i : Nat) :
    ((applyAfterRank st p).get? i).map hashRank = (st.get? i).map hashRank := by
  rw [applyAfterRank, updRow_get?]
  cases st.get? i with
  | none => rfl
  | some r =>
    simp only [Option.map_some']
    split <;> rfl

theorem foldl_row_hashRank {g : List Row → (Nat × Int) → List Row}
    (hg : ∀ st p i, ((g st p).get? i).map hashRank = (st.get? i).map hashRank) :
    ∀ (ps : List (Nat × Int)) (st : List Row) (i : Nat),
      ((ps.foldl g st).get? i).map hashRank = (st.get? i).map hashRank := by
  intro ps
  induction ps with
  | nil => intro st i; rfl
  | cons p ps ih => intro st i; rw [List.foldl_cons, ih, hg]

theorem fillBetween_length (st : List Row) :
    (fillBetween st).length = st.length := by
  simp [fillBetween]

theorem fillBetween_hashRank (st : List Row) (i : Nat) :
    ((fillBetween st).get? i).map hashRank = (st.get? i).map hashRank := by
  rw [fillBetween]
  simp only [List.get?_eq_getElem?, List.getElem?_map]
  cases st[i]? with
  | none => rfl
  | some r =>
    simp only [Option.map_some']
    cases hb : r.beforeRank <;> cases ha : r.afterRank <;>
      simp [hashRank, fillRow, hb, ha]

theorem createBetweenCol_length (st : List Row) :
    (createBetweenCol st).length = st.length := by
  rw [createBetweenCol, fillBetween_length,
    foldl_row_length applyAfterRank_length,
    foldl_row_length applyBeforeRank_length]

theorem createBetweenCol_hashRank (st : List Row) (i : Nat) :
    ((createBetweenCol st).get? i).map hashRank = (st.get? i).map hashRank := by
  rw [createBetweenCol, fillBetween_hashRank,
    foldl_row_hashRank applyAfterRank_hashRank,
    foldl_row_hashRank applyBeforeRank_hashRank]

/-! ## Lookup lemmas -/

theorem lookupRow_hash {st : List Row} {h : Nat} {a : Row}
    (ha : lookupRow st h = some a) : a.hash = h := by
  have := List.find?_some ha
  simpa using this

theorem lookupRow_mem {st : List Row} {h : Nat} {a : Row}
    (ha : lookupRow st h = some a) : a ∈ st :=
  List.mem_of_find?_eq_some ha

/-- Looking a row up after a hash-preserving in-place map. -/
theorem lookupRow_map (st : List Row) (g : Row → Row)
    (hg : ∀ r, (g r).hash = r.hash) (h : Nat) :
    lookupRow (st.map g) h = (lookupRow st h).map g := by
  induction st with
  | nil => rfl
  | cons r rest ih =>
    unfold lookupRow at ih ⊢
    rw [List.map_cons, List.find?_cons, List.find?_cons, hg r]
    cases hc : (r.hash == h) <;> simp [hc, ih]

/-- Looking a row up after `updRow`: the first matching row (if any)
comes back transformed when it matched the updated id. -/
theorem lookupRow_updRow (st : List Row) (h' : Nat) (f : Row → Row)
    (hf : ∀ r, (f r).hash = r.hash) (h : Nat) :
    lookupRow (updRow st h' f) h
      = (lookupRow st h).map (fun r => if r.hash == h' then f r else r) := by
  rw [updRow]
  refine lookupRow_map st _ (fun r => ?_) h
  by_cases hc : r.hash == h'
  · simp [hc, hf]
  · simp [hc]

/-! ## The two bound-collecting passes as per-row functions -/

theorem foldl_applyBeforeRank_eq_map :
    ∀ (ps : List (Nat × Int)) (st : List Row),
      ps.foldl applyBeforeRank st = st.map (minWriteRow ps) := by
  intro ps
  induction ps with
  | nil =>
    intro st
    have h0 : st.map (minWriteRow []) = st.map id :=
      List.map_congr_left (fun r _ => rfl)
    rw [h0, List.map_id]
    rfl
  | cons p ps ih =>
    intro st
    rw [List.foldl_cons, ih, applyBeforeRank, updRow, List.map_map]
    refine List.map_congr_left (fun r _ => ?_)
    simp only [Function.comp, minWriteRow, targetedVals]
    by_cases hc : r.hash = p.1
    · have hb : (r.hash == p.1) = true := by simp [hc]
      have hb2 : (p.1 == r.hash) = true := by simp [hc]
      simp only [hb, if_pos rfl, List.filter_cons, hb2, if_true]
      rfl
    · have hb : (r.hash == p.1) = false := by simp [hc]
      have hb2 : (p.1 == r.hash) = false := by simp [Ne.symm hc]
      simp only [hb, if_false, List.filter_cons, hb2]
      rfl

theorem foldl_applyAfterRank_eq_map :
    ∀ (ps : List (Nat × Int)) (st : List Row),
      ps.foldl applyAfterRank st = st.map (maxWriteRow ps) := by
  intro ps
  induction ps with
  | nil =>
    intro st
    have h0 : st.map (maxWriteRow []) = st.map id :=
      List.map_congr_left (fun r _ => rfl)
    rw [h0, List.map_id]
    rfl
  | cons p ps ih =>
    intro st
    rw [List.foldl_cons, ih, applyAfterRank, updRow, List.map_map]
    refine List.map_congr_left (fun r _ => ?_)
    simp only [Function.comp, maxWriteRow, targetedVals]
    by_cases hc : r.hash = p.1
    · have hb : (r.hash == p.1) = true := by simp [hc]
      have hb2 : (p.1 == r.hash) = true := by simp [hc]
      simp only [hb, if_pos rfl, List.filter_cons, hb2, if_true]
      rfl
    · have hb : (r.hash == p.1) = false := by simp [hc]
      have hb2 : (p.1 == r.hash) = false := by simp [Ne.symm hc]
      simp only [hb, if_false, List.filter_cons, hb2]
      rfl

theorem filter_map_flatMap {α β γ : Type} (l : List α) (f : α → List β)
    (p : β → Bool) (q : β → γ) :
    ((l.flatMap f).filter p).map q
      = l.flatMap (fun x => ((f x).filter p).map q) := by
  induction l with
  | nil => rfl
  | cons x l ih =>
    rw [List.flatMap_cons, List.filter_append, List.map_append, ih,
      List.flatMap_cons]

theorem flatMap_nil_of {α β : Type} (l : List α) (f : α → List β)
    (hf : ∀ x ∈ l, f x = []) : l.flatMap f = [] := by
  induction l with
  | nil => rfl
  | cons x l ih =>
    rw [List.flatMap_cons, hf x (List.mem_cons_self x l),
      ih (fun y hy => hf y (List.mem_cons_of_mem x hy))]
    rfl

theorem flatMap_congr_toList {α β : Type} (l : List α) (f : α → List β)
    (g : α → Option β) (hfg : ∀ x ∈ l, f x = (g x).toList) :
    l.flatMap f = l.filterMap g := by
  induction l with
  | nil => rfl
  | cons x l ih =>
    rw [List.flatMap_cons, hfg x (List.mem_cons_self x l),
      ih (fun y hy => hfg y (List.mem_cons_of_mem x hy)),
      List.filterMap_cons]
    cases g x <;> rfl

/-- Pairs built from a fixed first component, filtered on it. -/
theorem pairs_fixed_fst_filter (hh : Nat) (h : Nat) :
    ∀ xs : List Row,
      ((xs.filterMap (fun a => a.rank.map (fun v => (hh, v)))).filter
          (fun p => p.1 == h)).map (·.2)
        = if hh == h then xs.filterMap (·.rank) else [] := by
  intro xs
  induction xs with
  | nil => cases hc : (hh == h) <;> simp [hc]
  | cons a xs ih =>
    cases hrk : a.rank with
    | none =>
      simp only [List.filterMap_cons, hrk, Option.map_none']
      rw [ih]
    | some v =>
      simp only [List.filterMap_cons, hrk, Option.map_some']
      by_cases hc : hh = h
      · have hb : (hh == h) = true := by simp [hc]
        rw [List.filter_cons_of_pos (by simp [hc]), List.map_cons, ih, hb,
          if_pos rfl]
        simp [List.filterMap_cons, hrk, hb]
      · have hb : (hh == h) = false := by simp [hc]
        rw [List.filter_cons_of_neg (by simp [hc]), ih, hb]
        simp

/-- One row's contribution to the second loop only targets its own id:
the ranks of its ranked direct predecessors when it is unranked. -/
theorem lowerPairsRow_filter (full : List Row) (r : Row) (h : Nat) :
    ((lowerPairsRow full r).filter (fun p => p.1 == h)).map (·.2)
      = if r.hash == h && !(hasRank r) then predRanks full r.after else [] := by
  rw [lowerPairsRow]
  cases hrk : r.rank with
  | some v => simp [hasRank, hrk]
  | none =>
    rw [pairs_fixed_fst_filter r.hash h (r.after.filterMap (lookupRow full))]
    have hr : hasRank r = false := by simp [hasRank, hrk]
    rw [hr]
    cases hc : (r.hash == h) <;> simp [predRanks]

/-- Rows whose id differs from `h` contribute nothing to the pairs
targeting `h` in the second loop. -/
theorem lowerPairs_no_contribution (full : List Row) (h : Nat) :
    ∀ rows : List Row, (∀ x ∈ rows, x.hash ≠ h) →
      rows.flatMap (fun x =>
          ((lowerPairsRow full x).filter (fun p => p.1 == h)).map (·.2)) = [] := by
  intro rows hrows
  refine flatMap_nil_of rows _ (fun x hx => ?_)
  rw [lowerPairsRow_filter]
  have : (x.hash == h) = false := by simp [hrows x hx]
  rw [this]
  simp

/-- The values the second loop sends to the row with id `h`: the ranks
of its ranked direct predecessors when that row is unranked, nothing
otherwise (unique ids assumed, as the program does). -/
theorem lowerPairs_filter (full : List Row) (h : Nat)
    (hnd : (full.map (·.hash)).Nodup) :
    targetedVals (lowerPairs full) h
      = (match lookupRow full h with
         | some a => if hasRank a then [] else predRanks full a.after
         | none => ([] : List Int)) := by
  rw [targetedVals, lowerPairs, filter_map_flatMap]
  suffices haux : ∀ rows : List Row, (rows.map (·.hash)).Nodup →
      rows.flatMap (fun x =>
          ((lowerPairsRow full x).filter (fun p => p.1 == h)).map (·.2))
        = (match rows.find? (fun r => r.hash == h) with
           | some a => if hasRank a then [] else predRanks full a.after
           | none => ([] : List Int)) by
    exact haux full hnd
  intro rows
  induction rows with
  | nil => intro _; rfl
  | cons x rows ih =>
    intro hnd2
    rw [List.flatMap_cons, lowerPairsRow_filter, List.find?_cons]
    by_cases hxh : x.hash = h
    · have hb : (x.hash == h) = true := by simp [hxh]
      rw [hb]
      have hrest : rows.flatMap (fun x =>
          ((lowerPairsRow full x).filter (fun p => p.1 == h)).map (·.2)) = [] := by
        refine lowerPairs_no_contribution full h rows (fun y hy hyh => ?_)
        have hx' : x.hash ∉ rows.map (·.hash) := by
          rw [List.map_cons] at hnd2
          exact (List.nodup_cons.mp hnd2).1
        exact hx' (hxh ▸ hyh ▸ List.mem_map_of_mem (·.hash) hy)
      rw [hrest]
      by_cases hr : hasRank x
      · simp [hr]
      · simp [hr]
    · have hb : (x.hash == h) = false := by simp [hxh]
      rw [hb]
      have hnd3 : (rows.map (·.hash)).Nodup := by
        rw [List.map_cons] at hnd2
        exact (List.nodup_cons.mp hnd2).2
      rw [ih hnd3]
      simp

/-! ## Congruence: the first pass does not change what the second one
reads -/

theorem lookupRow_self {st : List Row} (hnd : (st.map (·.hash)).Nodup)
    {r : Row} (hr : r ∈ st) : lookupRow st r.hash = some r := by
  induction st with
  | nil => cases hr
  | cons x rest ih =>
    rw [List.map_cons] at hnd
    rcases List.mem_cons.mp hr with hr | hr
    · subst hr
      unfold lookupRow
      rw [List.find?_cons]
      simp
    · have hx : x.hash ≠ r.hash := by
        intro he
        exact (List.nodup_cons.mp hnd).1
          (he ▸ List.mem_map_of_mem (·.hash) hr)
      unfold lookupRow at *
      rw [List.find?_cons]
      have : (x.hash == r.hash) = false := by simp [hx]
      rw [this]
      exact ih (List.nodup_cons.mp hnd).2 hr

theorem flatMap_congr_of_mem {α β : Type} (l : List α) (f g : α → List β)
    (hfg : ∀ x ∈ l, f x = g x) : l.flatMap f = l.flatMap g := by
  induction l with
  | nil => rfl
  | cons x l ih =>
    rw [List.flatMap_cons, List.flatMap_cons, hfg x (List.mem_cons_self x l),
      ih (fun y hy => hfg y (List.mem_cons_of_mem x hy))]

theorem filterMap_congr_of_mem {α β : Type} (l : List α) (f g : α → Option β)
    (hfg : ∀ x ∈ l, f x = g x) : l.filterMap f = l.filterMap g := by
  induction l with
  | nil => rfl
  | cons x l ih =>
    rw [List.filterMap_cons, List.filterMap_cons,
      hfg x (List.mem_cons_self x l),
      ih (fun y hy => hfg y (List.mem_cons_of_mem x hy))]

theorem filterMap_lookup_map (st : List Row) (F : Row → Row)
    (hF : ∀ r, (F r).hash = r.hash) :
    ∀ l : List Nat,
      l.filterMap (lookupRow (st.map F)) = (l.filterMap (lookupRow st)).map F := by
  intro l
  induction l with
  | nil => rfl
  | cons x l ih =>
    rw [List.filterMap_cons, List.filterMap_cons, lookupRow_map st F hF x]
    cases lookupRow st x with
    | none => exact ih
    | some a => simp [ih]

/-- The second loop reads the same pairs off the state the first loop
produced as off the initial state, because the first loop only writes
`BeforeRank`. -/
theorem lowerPairs_map_congr (st : List Row) (F : Row → Row)
    (hF : ∀ r, (F r).hash = r.hash ∧ (F r).rank = r.rank ∧ (F r).after = r.after) :
    lowerPairs (st.map F) = lowerPairs st := by
  rw [lowerPairs, lowerPairs, List.flatMap_map]
  refine flatMap_congr_of_mem st _ _ (fun r _ => ?_)
  show lowerPairsRow (st.map F) (F r) = lowerPairsRow st r
  rw [lowerPairsRow, lowerPairsRow, (hF r).2.1, (hF r).2.2, (hF r).1]
  cases r.rank with
  | some v => rfl
  | none =>
    rw [filterMap_lookup_map st F (fun r => (hF r).1) r.after,
      List.filterMap_map]
    show ((r.after.filterMap (lookupRow st)).filterMap
        ((fun a => a.rank.map (fun v => (r.hash, v))) ∘ F))
      = ((r.after.filterMap (lookupRow st)).filterMap
        (fun a => a.rank.map (fun v => (r.hash, v))))
    refine filterMap_congr_of_mem _ _ _ (fun a _ => ?_)
    show ((F a).rank).map _ = _
    rw [(hF a).2.1]

/-! ## Minimum / maximum facts about the two folds -/

theorem foldMinOpt_some_spec :
    ∀ (vs : List Int) (b : Int),
      ∃ m, foldMinOpt (some b) vs = some m ∧ (m = b ∨ m ∈ vs) ∧ m ≤ b
        ∧ ∀ v ∈ vs, m ≤ v := by
  intro vs
  induction vs with
  | nil => intro b; exact ⟨b, rfl, .inl rfl, le_refl b, by simp⟩
  | cons v vs ih =>
    intro b
    show ∃ m, foldMinOpt (minStep (some b) v) vs = some m ∧ _
    by_cases hc : b > v
    · obtain ⟨m, h1, h2, h3, h4⟩ := ih v
      rw [minStep, if_pos hc]
      refine ⟨m, h1, ?_, ?_, ?_⟩
      · rcases h2 with h2 | h2
        · exact .inr (by simp [h2])
        · exact .inr (by simp [h2])
      · exact le_trans h3 hc.le
      · intro w hw
        rcases List.mem_cons.mp hw with hw | hw
        · exact hw ▸ h3
        · exact h4 w hw
    · obtain ⟨m, h1, h2, h3, h4⟩ := ih b
      rw [minStep, if_neg hc]
      refine ⟨m, h1, ?_, h3, ?_⟩
      · rcases h2 with h2 | h2
        · exact .inl h2
        · exact .inr (by simp [h2])
      · intro w hw
        rcases List.mem_cons.mp hw with hw | hw
        · exact hw ▸ h3.trans (not_lt.mp hc)
        · exact h4 w hw

theorem foldMinOpt_none_spec (vs : List Int) :
    (foldMinOpt none vs = none ↔ vs = [])
    ∧ ∀ m, foldMinOpt none vs = some m → m ∈ vs ∧ ∀ v ∈ vs, m ≤ v := by
  cases vs with
  | nil => exact ⟨by simp [foldMinOpt], by intro m hm; cases hm⟩
  | cons v vs =>
    have step : foldMinOpt none (v :: vs) = foldMinOpt (some v) vs := rfl
    obtain ⟨m, h1, h2, h3, h4⟩ := foldMinOpt_some_spec vs v
    constructor
    · rw [step, h1]; simp
    · intro m' hm'
      rw [step, h1] at hm'
      cases hm'
      constructor
      · rcases h2 with h2 | h2
        · simp [h2]
        · simp [h2]
      · intro w hw
        rcases List.mem_cons.mp hw with hw | hw
        · exact hw ▸ h3
        · exact h4 w hw

theorem foldMaxOpt_some_spec :
    ∀ (vs : List Int) (b : Int),
      ∃ m, foldMaxOpt (some b) vs = some m ∧ (m = b ∨ m ∈ vs) ∧ b ≤ m
        ∧ ∀ v ∈ vs, v ≤ m := by
  intro vs
  induction vs with
  | nil => intro b; exact ⟨b, rfl, .inl rfl, le_refl b, by simp⟩
  | cons v vs ih =>
    intro b
    show ∃ m, foldMaxOpt (maxStep (some b) v) vs = some m ∧ _
    by_cases hc : b < v
    · obtain ⟨m, h1, h2, h3, h4⟩ := ih v
      rw [maxStep, if_pos hc]
      refine ⟨m, h1, ?_, hc.le.trans h3, ?_⟩
      · rcases h2 with h2 | h2
        · exact .inr (by simp [h2])
        · exact .inr (by simp [h2])
      · intro w hw
        rcases List.mem_cons.mp hw with hw | hw
        · exact hw ▸ h3
        · exact h4 w hw
    · obtain ⟨m, h1, h2, h3, h4⟩ := ih b
      rw [maxStep, if_neg hc]
      refine ⟨m, h1, ?_, h3, ?_⟩
      · rcases h2 with h2 | h2
        · exact .inl h2
        · exact .inr (by simp [h2])
      · intro w hw
        rcases List.mem_cons.mp hw with hw | hw
        · exact hw ▸ le_trans (not_lt.mp hc) h3
        · exact h4 w hw

theorem foldMaxOpt_none_spec (vs : List Int) :
    (foldMaxOpt none vs = none ↔ vs = [])
    ∧ ∀ m, foldMaxOpt none vs = some m → m ∈ vs ∧ ∀ v ∈ vs, v ≤ m := by
  cases vs with
  | nil => exact ⟨by simp [foldMaxOpt], by intro m hm; cases hm⟩
  | cons v vs =>
    have step : foldMaxOpt none (v :: vs) = foldMaxOpt (some v) vs := rfl
    obtain ⟨m, h1, h2, h3, h4⟩ := foldMaxOpt_some_spec vs v
    constructor
    · rw [step, h1]; simp
    · intro m' hm'
      rw [step, h1] at hm'
      cases hm'
      constructor
      · rcases h2 with h2 | h2
        · simp [h2]
        · simp [h2]
      · intro w hw
        rcases List.mem_cons.mp hw with hw | hw
        · exact hw ▸ h3
        · exact h4 w hw

/-! ## What the two pair lists hold for a fixed target row -/

/-- What one `After` list contributes to the pairs targeting `h`. -/
theorem afterList_filter (full : List Row) (v : Int) (h : Nat) :
    ∀ l : List Nat, l.Nodup →
      ((((l.filterMap (lookupRow full)).filter (fun a => ¬ hasRank a)).map
          (fun a => (a.hash, v))).filter (fun p => p.1 == h)).map (·.2)
        = (match lookupRow full h with
           | some a => if ¬ hasRank a ∧ h ∈ l then [v] else []
           | none => ([] : List Int)) := by
  intro l
  induction l with
  | nil =>
    intro _
    cases lookupRow full h <;> simp
  | cons x l ih =>
    intro hnd
    have hnd2 : l.Nodup := hnd.of_cons
    have hxl : x ∉ l := (List.nodup_cons.mp hnd).1
    rw [List.filterMap_cons]
    cases hx : lookupRow full x with
    | none =>
      rw [ih hnd2]
      cases hh : lookupRow full h with
      | none => rfl
      | some a =>
        by_cases hxh : x = h
        · subst hxh; rw [hx] at hh; cases hh
        · have hhx : ¬ h = x := fun e => hxh e.symm
          simp [List.mem_cons, hhx]
    | some a' =>
      have hha' : a'.hash = x := lookupRow_hash hx
      by_cases hr : hasRank a'
      · have : (decide ¬ (hasRank a' = true)) = false := by simp [hr]
        rw [List.filter_cons_of_neg (by simp [hr]), ih hnd2]
        by_cases hxh : x = h
        · subst hxh
          rw [hx]
          simp [hr]
        · cases hh : lookupRow full h with
          | none => rfl
          | some a =>
            have hhx : ¬ h = x := fun e => hxh e.symm
            simp [List.mem_cons, hhx]
      · rw [List.filter_cons_of_pos (by simp [hr]), List.map_cons]
        by_cases hxh : x = h
        · subst hxh
          rw [List.filter_cons_of_pos (by simp [hha']), List.map_cons,
            ih hnd2, hx]
          simp [hr, hxl]
        · rw [List.filter_cons_of_neg (by simp [hha', hxh]), ih hnd2]
          cases hh : lookupRow full h with
          | none => rfl
          | some a =>
            have hhx : ¬ h = x := fun e => hxh e.symm
            simp [List.mem_cons, hhx]

/-- The values the first loop sends to the row with id `h`: the ranks
of its ranked direct successors when that row is unranked, nothing
otherwise. -/
theorem upperPairs_filter (full : List Row) (h : Nat)
    (hna : ∀ r ∈ full, r.after.Nodup) :
    targetedVals (upperPairs full) h
      = (match lookupRow full h with
         | some a => if hasRank a then [] else succRanks full h
         | none => ([] : List Int)) := by
  rw [targetedVals, upperPairs, filter_map_flatMap]
  have hrow : ∀ r ∈ full,
      (((upperPairsRow full r).filter (fun p => p.1 == h)).map (·.2))
        = (match lookupRow full h with
           | some a => if hasRank a then [] else (succRankRow h r).toList
           | none => ([] : List Int)) := by
    intro r hr
    rw [upperPairsRow]
    cases hrk : r.rank with
    | none =>
      cases hh : lookupRow full h with
      | none => rfl
      | some a =>
        by_cases ha : hasRank a
        · simp [ha]
        · simp [ha, succRankRow, hrk]
    | some v =>
      rw [afterList_filter full v h r.after (hna r hr)]
      cases hh : lookupRow full h with
      | none => rfl
      | some a =>
        by_cases ha : hasRank a
        · simp [ha]
        · by_cases hm : h ∈ r.after
          · simp [ha, hm, succRankRow, hrk]
          · simp [ha, hm, succRankRow, hrk]
  cases hh : lookupRow full h with
  | none =>
    refine flatMap_nil_of full _ (fun x hx => ?_)
    have := hrow x hx
    rw [hh] at this
    exact this
  | some a =>
    show _ = if hasRank a then [] else succRanks full h
    by_cases ha : hasRank a
    · rw [if_pos ha]
      refine flatMap_nil_of full _ (fun x hx => ?_)
      have := hrow x hx
      rw [hh] at this
      simpa [ha] using this
    · rw [if_neg ha, succRanks]
      refine flatMap_congr_toList full _ _ (fun x hx => ?_)
      have := hrow x hx
      rw [hh] at this
      simpa [ha] using this

/-! ## Claim C1 -/

/-- C1, counterexample.  The claim says `range.min` is the maximum of
`r + k` over ranked anchors reached by breadth-first traversal through
`k` unranked hops.  In `chainRows`, row `#3` reaches the anchor of rank
1001 through `k = 2` unranked hops, so the claim gives `min = 1003`;
the code only inspects direct predecessors, finds none ranked, and
falls back to the constant 1001, recording `Between = (1001, 1009)`. -/
theorem c1_counterexample :
    (lookupRow (createBetweenCol chainRows) 3).map (·.between)
      = some (some (1001, 1009))
    ∧ ¬ ((1001 : Int) = 1001 + 2) := by
  constructor
  · decide
  · decide

/-- C1, amended.  With fresh annotation columns and unique ids, the
resolver works from direct edges only: `BeforeRank` becomes the minimum
rank over the item's ranked direct successors, `AfterRank` the maximum
rank over its ranked direct predecessors (both only for unranked rows),
and `Between` is `(AfterRank+1, BeforeRank-1)` with constant defaults
1001 / 2000 when one bound is missing and no range at all when both
are.  No traversal through unranked chains and no free-rank defaults
take place. -/
theorem c1_direct_bounds (st : List Row)
    (hnd : (st.map (·.hash)).Nodup)
    (hna : ∀ r ∈ st, r.after.Nodup)
    (hfresh : ∀ r ∈ st, r.beforeRank = none ∧ r.afterRank = none
      ∧ r.between = none) :
    ∀ r₀ ∈ st, ∃ r₁,
      lookupRow (createBetweenCol st) r₀.hash = some r₁
      ∧ r₁.between = mkBetween
          (foldMinOpt none (if hasRank r₀ then [] else succRanks st r₀.hash))
          (foldMaxOpt none (if hasRank r₀ then [] else predRanks st r₀.after))
      ∧ (∀ b, foldMinOpt none (if hasRank r₀ then [] else succRanks st r₀.hash)
            = some b → b ∈ succRanks st r₀.hash ∧ ∀ v ∈ succRanks st r₀.hash, b ≤ v)
      ∧ (∀ a, foldMaxOpt none (if hasRank r₀ then [] else predRanks st r₀.after)
            = some a → a ∈ predRanks st r₀.after ∧ ∀ v ∈ predRanks st r₀.after, v ≤ a) := by
  intro r₀ hr₀
  obtain ⟨hb0, ha0, hbt0⟩ := hfresh r₀ hr₀
  have hself : lookupRow st r₀.hash = some r₀ := lookupRow_self hnd hr₀
  have hup : targetedVals (upperPairs st) r₀.hash
      = if hasRank r₀ then [] else succRanks st r₀.hash := by
    rw [upperPairs_filter st r₀.hash hna, hself]
  have hlow0 : targetedVals (lowerPairs st) r₀.hash
      = if hasRank r₀ then [] else predRanks st r₀.after := by
    rw [lowerPairs_filter st r₀.hash hnd, hself]
  have hmap1 := foldl_applyBeforeRank_eq_map (upperPairs st) st
  have hcong : lowerPairs ((upperPairs st).foldl applyBeforeRank st)
      = lowerPairs st := by
    rw [hmap1]
    exact lowerPairs_map_congr st _ (fun r => ⟨rfl, rfl, rfl⟩)
  have hmap2 := foldl_applyAfterRank_eq_map
    (lowerPairs ((upperPairs st).foldl applyBeforeRank st))
    ((upperPairs st).foldl applyBeforeRank st)
  have hcb : createBetweenCol st
      = fillBetween ((lowerPairs ((upperPairs st).foldl applyBeforeRank st)).foldl
          applyAfterRank ((upperPairs st).foldl applyBeforeRank st)) := rfl
  rw [hcb, hmap2, hcong, hmap1, fillBetween, List.map_map, List.map_map]
  have hpres : ∀ r : Row,
      (((fillRow ∘ maxWriteRow (lowerPairs st)) ∘ minWriteRow (upperPairs st)) r).hash
        = r.hash := by
    intro r
    show (fillRow (maxWriteRow (lowerPairs st) (minWriteRow (upperPairs st) r))).hash
      = r.hash
    rw [fillRow]
    split <;> rfl
  rw [lookupRow_map st _ hpres, hself]
  simp only [Option.map_some', Function.comp]
  refine ⟨_, rfl, ?_, ?_, ?_⟩
  · show (fillRow (maxWriteRow (lowerPairs st) (minWriteRow (upperPairs st) r₀))).between
      = _
    have hrow : maxWriteRow (lowerPairs st) (minWriteRow (upperPairs st) r₀)
        = { r₀ with
            beforeRank := foldMinOpt none (if hasRank r₀ then [] else succRanks st r₀.hash),
            afterRank := foldMaxOpt none (if hasRank r₀ then [] else predRanks st r₀.after) } := by
      rw [maxWriteRow, minWriteRow]
      show ({ r₀ with beforeRank := _, afterRank := _ } : Row) = _
      rw [hb0, ha0, hup]
      have : targetedVals (lowerPairs st)
          ({ r₀ with beforeRank := foldMinOpt none (if hasRank r₀ then [] else succRanks st r₀.hash) } : Row).hash
          = if hasRank r₀ then [] else predRanks st r₀.after := hlow0
      rw [this]
    rw [hrow, fillRow]
    cases hB : foldMinOpt none (if hasRank r₀ then [] else succRanks st r₀.hash) <;>
      cases hA : foldMaxOpt none (if hasRank r₀ then [] else predRanks st r₀.after) <;>
      simp [mkBetween, hB, hA, hbt0]
  · intro b hb
    by_cases hr : hasRank r₀
    · rw [if_pos hr] at hb
      cases hb
    · rw [if_neg hr] at hb
      exact (foldMinOpt_none_spec _).2 b hb
  · intro a ha
    by_cases hr : hasRank r₀
    · rw [if_pos hr] at ha
      cases ha
    · rw [if_neg hr] at ha
      exact (foldMaxOpt_none_spec _).2 a ha

/-- C1, amended, witness: the amended characterization applied to the
concrete `chainRows` input. -/
theorem c1_direct_bounds_witness :
    ∃ r₁, lookupRow (createBetweenCol chainRows)
        ({ hash := 3, year := 1990, after := [2] } : Row).hash = some r₁
      ∧ r₁.between = mkBetween
          (foldMinOpt none (if hasRank { hash := 3, year := 1990, after := [2] }
            then [] else succRanks chainRows 3))
          (foldMaxOpt none (if hasRank { hash := 3, year := 1990, after := [2] }
            then [] else predRanks chainRows [2]))
      ∧ (∀ b, foldMinOpt none (if hasRank { hash := 3, year := 1990, after := [2] }
            then [] else succRanks chainRows 3) = some b
          → b ∈ succRanks chainRows 3 ∧ ∀ v ∈ succRanks chainRows 3, b ≤ v)
      ∧ (∀ a, foldMaxOpt none (if hasRank { hash := 3, year := 1990, after := [2] }
            then [] else predRanks chainRows [2]) = some a
          → a ∈ predRanks chainRows [2] ∧ ∀ v ∈ predRanks chainRows [2], v ≤ a) :=
  c1_direct_bounds chainRows (by decide) (by decide) (by decide)
    { hash := 3, year := 1990, after := [2] } (by decide)

/-! ## Claim C2 -/

/-- C2, counterexample.  On the Scenario A input, edge construction
followed by range resolution leaves item `#2` with no range at all and
gives item `#3` the range `(1001, 1000)` — not `(1002, 1003)` for
either item as the claim states. -/
theorem c2_counterexample :
    scResolved.map (fun l => ((lookupRow l 2).map (·.between),
                              (lookupRow l 3).map (·.between)))
      = .ok (some none, some (some (1001, 1000)))
    ∧ ¬ (some ((1001 : Int), (1000 : Int)) = some (1002, 1003)) := by
  constructor
  · decide
  · decide

/-- C2, amended.  The group-sequence pass orders both `#1` and `#4`
after `#3` (rows without a `groupSeq` follow the last row carrying
one), so after edge construction the `After` lists are
`#3:[#2]`, `#1:[#3]`, `#4:[#3,#1]`; range resolution then leaves `#2`
unannotated and annotates `#3` with the contradictory range
`(1001, 1000)`. -/
theorem c2_actual_annotation :
    scEdges.map (fun l => l.map (fun r => (r.hash, r.after)))
      = .ok [(2, []), (3, [2]), (1, [3]), (4, [3, 1])]
    ∧ scResolved.map (fun l => l.map (fun r => (r.hash, r.between)))
      = .ok [(2, none), (3, some (1001, 1000)), (1, none), (4, none)] := by
  constructor
  · decide
  · decide

/-! ## Claim C3 -/

/-- C3, counterexample.  On the Scenario A input the resolver computes
`min = 1001 > 1000 = max` for item `#3`, records exactly that pair in
the `Between` column and returns normally — there is no
`BoundContradictionError` (or any error) anywhere in
`create_between_col`. -/
theorem c3_counterexample :
    scResolved.map (fun l => (lookupRow l 3).map (·.between))
      = .ok (some (some (1001, 1000)))
    ∧ (1001 : Int) > 1000 := by
  constructor
  · decide
  · decide

/-- C3, amended: the resolver records whatever bounds it computed, even
with `min > max`, and always continues; it touches only the annotation
columns, keeping every row (here: all four Scenario A rows survive with
identity and rank intact, and the contradictory range is recorded). -/
theorem c3_records_contradiction :
    (∀ st : List Row, (createBetweenCol st).length = st.length
      ∧ ∀ i : Nat, ((createBetweenCol st).get? i).map hashRank
          = (st.get? i).map hashRank)
    ∧ scResolved.map (fun l => l.map (fun r => (r.hash, r.rank, r.between)))
        = .ok [(2, none, none), (3, none, some (1001, 1000)),
               (1, some 1001, none), (4, some 1004, none)] := by
  constructor
  · intro st
    exact ⟨createBetweenCol_length st, fun i => createBetweenCol_hashRank st i⟩
  · decide

/-! ## Claim C4 -/

/-- C4, counterexample.  Two items both claiming rank 1500 pass
`Movie.__init__` validation and `MovieList.__init__` without any error:
ingestion succeeds and simply records the rank twice.  No
duplicate-rank check (and no `DuplicateRankError`) exists anywhere in
`moviedata.py`. -/
theorem c4_counterexample :
    (ingest dupRankInput).map (·.ranks) = .ok [1500, 1500] := by
  decide

/-- C4, amended: ingestion never checks rank uniqueness — for every
input, the `ranks` list of the constructed collection is a permutation
of all the (truthy) rank values of the input, duplicates included. -/
theorem c4_no_duplicate_check (ms : List MovieRec) :
    (movieListInit ms).ranks.Perm
      (ms.filterMap (fun m => if pyFalsy m.rank then none else m.rank)) := by
  unfold movieListInit
  refine (List.perm_insertionSort _ _).trans ?_
  exact List.Perm.filterMap _ (List.perm_insertionSort _ _)

/-! ## Claim C5 -/

/-- C5, counterexample.  The claim requires the `groupSeq` values of a
group to form a contiguous run *starting at 1* for edge building to
succeed.  The code accepts the first carried value whatever it is: on a
group with values `[2, 3]` the run succeeds (adding the ordinary edge),
although the claimed iff demands failure. -/
theorem c5_counterexample :
    (computeEdgesByYear gapRows).map (fun l => l.map (fun r => (r.hash, r.after)))
      = .ok [(1, []), (2, [1])]
    ∧ gapRows.map (·.rby) = [some 2, some 3] := by
  constructor
  · decide
  · decide

/-! ## Claim C6 -/

/-- C6, counterexample.  The claim says no group-sequence edge is added
when both rows of a consecutive pair already carry a global rank.  The
code calls `set_after` unconditionally for every consecutive pair of
`groupSeq` carriers; `max_ranked_after` returns `prev` unchanged
whenever the guard is ranked, so here `#1 → #2` is added even though
both rows are ranked. -/
theorem c6_counterexample :
    (computeEdgesByYear bothRankedRows).map
        (fun l => l.map (fun r => (r.hash, r.after)))
      = .ok [(1, []), (2, [1])]
    ∧ bothRankedRows.all (hasRank ·) = true := by
  constructor
  · decide
  · decide

/-! ## Claim C5: totality of the rank-run adjustment -/

theorem consecutiveRuns_covers :
    ∀ (l : List Int) (x : Int), x ∈ l →
      ∃ run ∈ consecutiveRuns l, x ∈ run := by
  intro l
  induction l with
  | nil => intro x hx; cases hx
  | cons y xs ih =>
    intro x hx
    rcases List.mem_cons.mp hx with rfl | hx
    · cases hc : consecutiveRuns xs with
      | nil => exact ⟨[x], by simp [consecutiveRuns, hc], by simp⟩
      | cons run rest =>
        cases run with
        | nil => exact ⟨[x], by simp [consecutiveRuns, hc], by simp⟩
        | cons z zs =>
          by_cases hz : z = x + 1
          · exact ⟨x :: z :: zs, by simp [consecutiveRuns, hc, hz], by simp⟩
          · exact ⟨[x], by simp [consecutiveRuns, hc, hz], by simp⟩
    · obtain ⟨run, hrun, hxrun⟩ := ih x hx
      cases hc : consecutiveRuns xs with
      | nil => rw [hc] at hrun; cases hrun
      | cons run1 rest =>
        rw [hc] at hrun
        cases run1 with
        | nil =>
          rcases List.mem_cons.mp hrun with rfl | hrun
          · cases hxrun
          · exact ⟨run, by simp [consecutiveRuns, hc, hrun], hxrun⟩
        | cons z zs =>
          by_cases hz : z = y + 1
          · rcases List.mem_cons.mp hrun with rfl | hrun
            · exact ⟨y :: z :: zs, by simp [consecutiveRuns, hc, hz],
                List.mem_cons_of_mem y hxrun⟩
            · exact ⟨run, by simp [consecutiveRuns, hc, hz, hrun], hxrun⟩
          · rcases List.mem_cons.mp hrun with rfl | hrun
            · exact ⟨z :: zs, by simp [consecutiveRuns, hc, hz], hxrun⟩
            · exact ⟨run, by simp [consecutiveRuns, hc, hz, hrun], hxrun⟩

theorem consecutiveRuns_subset :
    ∀ (l : List Int) (run : List Int), run ∈ consecutiveRuns l →
      ∀ x ∈ run, x ∈ l := by
  intro l
  induction l with
  | nil => intro run hrun; cases hrun
  | cons y xs ih =>
    intro run hrun x hx
    cases hc : consecutiveRuns xs with
    | nil =>
      rw [consecutiveRuns, hc] at hrun
      rcases List.mem_singleton.mp hrun with rfl
      rcases List.mem_singleton.mp hx with rfl
      exact List.mem_cons_self x xs
    | cons run1 rest =>
      cases run1 with
      | nil =>
        have hrun2 : run ∈ [y] :: rest := by
          simpa [consecutiveRuns, hc] using hrun
        rcases List.mem_cons.mp hrun2 with rfl | hrun3
        · rcases List.mem_singleton.mp hx with rfl
          exact List.mem_cons_self x xs
        · exact List.mem_cons_of_mem y (ih run (by rw [hc]; simp [hrun3]) x hx)
      | cons z zs =>
        by_cases hz : z = y + 1
        · have hrun2 : run ∈ (y :: z :: zs) :: rest := by
            simpa [consecutiveRuns, hc, hz] using hrun
          rcases List.mem_cons.mp hrun2 with rfl | hrun3
          · rcases List.mem_cons.mp hx with rfl | hx2
            · exact List.mem_cons_self x xs
            · exact List.mem_cons_of_mem y
                (ih (z :: zs) (by rw [hc]; simp) x hx2)
          · exact List.mem_cons_of_mem y (ih run (by rw [hc]; simp [hrun3]) x hx)
        · have hrun2 : run ∈ [y] :: (z :: zs) :: rest := by
            simpa [consecutiveRuns, hc, hz] using hrun
          rcases List.mem_cons.mp hrun2 with rfl | hrun3
          · rcases List.mem_singleton.mp hx with rfl
            exact List.mem_cons_self x xs
          · exact List.mem_cons_of_mem y (ih run (by rw [hc]; exact hrun3) x hx)

theorem mem_of_getLast?_row {l : List Int} {a : Int} (h : l.getLast? = some a) :
    a ∈ l := by
  obtain ⟨hne, heq⟩ := List.mem_getLast?_eq_getLast (by rw [h]; rfl)
  exact heq ▸ List.getLast_mem hne

/-- `max_ranked_after` never raises on a row of the table: the rank of
a ranked table row is in the sorted occupied-rank list, hence in some
consecutive run, and the last rank of that run is occupied by a row. -/
theorem mra_total (rows : List Row) (p c : Row) (hp : p ∈ rows) :
    ∃ a, mra rows (consecutiveRuns (sortRanks rows)) p c = .ok a := by
  by_cases h1 : ¬ hasRank p ∨ hasRank c
  · exact ⟨p, by rw [mra, if_pos h1]⟩
  · cases hrk : p.rank with
    | none => exact ⟨p, by rw [mra, if_neg h1]; simp [hrk]⟩
    | some rk =>
      have hmem : rk ∈ sortRanks rows := by
        rw [sortRanks]
        refine (List.perm_insertionSort _ _).mem_iff.mpr ?_
        exact List.mem_filterMap.mpr ⟨p, hp, hrk⟩
      obtain ⟨run, hrun, hrkrun⟩ := consecutiveRuns_covers _ rk hmem
      obtain ⟨run₀, hf⟩ : ∃ run₀,
          (consecutiveRuns (sortRanks rows)).find?
            (fun run => run.contains rk) = some run₀ := by
        cases hf : (consecutiveRuns (sortRanks rows)).find?
            (fun run => run.contains rk) with
        | none =>
          exfalso
          have hnone := List.find?_eq_none.mp hf run hrun
          apply hnone
          simpa using hrkrun
        | some run₀ => exact ⟨run₀, rfl⟩
      have hc0 : run₀.contains rk = true :=
        @List.find?_some (List Int) (fun run => run.contains rk) run₀
          (consecutiveRuns (sortRanks rows)) hf
      have hrun₀ : run₀ ∈ consecutiveRuns (sortRanks rows) :=
        List.mem_of_find?_eq_some hf
      have hf2 : (consecutiveRuns (sortRanks rows)).find?
          (fun run => decide (rk ∈ run)) = some run₀ := by
        simpa using hf
      cases hlast : run₀.getLast? with
      | none =>
        exfalso
        have hemp : run₀ = [] := by
          cases run₀ with
          | nil => rfl
          | cons a t =>
            rw [List.getLast?_eq_getLast_of_ne_nil (by simp)] at hlast
            cases hlast
        rw [hemp] at hc0
        cases hc0
      | some lastV =>
        by_cases hlv : lastV = rk
        · exact ⟨p, by rw [mra, if_neg h1]; simp [hrk, hf2, hlast, hlv]⟩
        · have hlmem : lastV ∈ sortRanks rows :=
            consecutiveRuns_subset _ run₀ hrun₀ lastV (mem_of_getLast?_row hlast)
          have hlmem2 : lastV ∈ rows.filterMap (·.rank) := by
            rw [sortRanks] at hlmem
            exact (List.perm_insertionSort _ _).mem_iff.mp hlmem
          obtain ⟨q, hq, hqr⟩ := List.mem_filterMap.mp hlmem2
          obtain ⟨q2, hq2⟩ : ∃ q2, rowByRank rows lastV = .ok q2 := by
            cases hfq : rows.find? (fun r => r.rank == some lastV) with
            | some q2 => exact ⟨q2, by rw [rowByRank]; simp [hfq]⟩
            | none =>
              exfalso
              have := List.find?_eq_none.mp hfq q hq
              simp [hqr] at this
          exact ⟨q2, by rw [mra, if_neg h1]; simp [hrk, hf2, hlast, hlv, hq2]⟩

theorem acceptGroup_true_dash :
    ∀ (g : List Row) (prev : Option Int),
      acceptGroup prev true g = g.all (fun r => r.rby.isNone) := by
  intro g
  induction g with
  | nil => intro prev; rfl
  | cons r rest ih =>
    intro prev
    cases hrby : r.rby with
    | some v =>
      by_cases hv : v ≤ 0
      · simp [acceptGroup, hrby, hv]
      · simp [acceptGroup, hrby, hv]
    | none =>
      simp [acceptGroup, hrby, ih]

/-- Success of the per-group loop does not depend on the threaded
state: it is the pure acceptance of the `Rank by year` sequence. -/
theorem goGroup_isOk_eq (rows : List Row) :
    ∀ (g : List Row) (st : List Row) (prev : Option (Int × Row)) (sd : Bool),
      (∀ pv : Int × Row, prev = some pv → pv.2 ∈ rows) →
      (∀ r ∈ g, r ∈ rows) →
      (goGroup rows (consecutiveRuns (sortRanks rows)) g st prev sd).isOk
        = acceptGroup (prev.map (·.1)) sd g := by
  intro g
  induction g with
  | nil => intro st prev sd _ _; rfl
  | cons r rest ih =>
    intro st prev sd hprev hmem
    have hmem_r : r ∈ rows := hmem r (List.mem_cons_self r rest)
    have hmem_rest : ∀ x ∈ rest, x ∈ rows :=
      fun x hx => hmem x (List.mem_cons_of_mem r hx)
    cases hrby : r.rby with
    | some v =>
      by_cases hv : v ≤ 0
      · simp [goGroup, acceptGroup, hrby, hv, Except.isOk, Except.toBool]
      · cases prev with
        | none =>
          cases sd with
          | false =>
            have hih := ih st (some (v, r)) false
              (by intro pv h; cases h; exact hmem_r) hmem_rest
            simp [goGroup, acceptGroup, hrby, hv, hih]
          | true =>
            simp [goGroup, acceptGroup, hrby, hv, Except.isOk, Except.toBool]
        | some pv =>
          have hpv : pv.2 ∈ rows := hprev pv rfl
          obtain ⟨a, ha⟩ := mra_total rows pv.2 r hpv
          by_cases hcond : (!sd && (v == pv.1 + 1)) = true
          · have hih := ih (setAfter st r.hash a.hash) (some (v, r)) sd
              (by intro pv' h; cases h; exact hmem_r) hmem_rest
            simp [goGroup, acceptGroup, hrby, hv, hcond, ha,
              Except.isOk, Except.toBool]
            exact hih
          · simp [goGroup, acceptGroup, hrby, hv, hcond, Except.isOk,
              Except.toBool]
    | none =>
      cases prev with
      | some pv =>
        have hpv : pv.2 ∈ rows := hprev pv rfl
        obtain ⟨a, ha⟩ := mra_total rows pv.2 r hpv
        have hih := ih (setAfter st r.hash a.hash) (some pv) true hprev hmem_rest
        simp [goGroup, acceptGroup, hrby, ha]
        exact hih
      | none =>
        have hih := ih st none true (by intro pv h; cases h) hmem_rest
        simp [goGroup, acceptGroup, hrby, hih]

theorem consecB_cons (v : Int) (l : List Int) :
    consecB (v :: l) = consecFromB (some v) l := by
  cases l <;> rfl

theorem consecFromB_nil (p : Option Int) : consecFromB p [] = true := by
  cases p <;> rfl

theorem consecFromB_none (l : List Int) : consecFromB none l = consecB l := by
  cases l <;> rfl

theorem consecFromB_some_cons (p a : Int) (t : List Int) :
    consecFromB (some p) (a :: t) = ((a == p + 1) && consecB (a :: t)) := rfl

theorem acceptGroup_false_eq :
    ∀ (g : List Row) (prev : Option Int),
      acceptGroup prev false g
        = (((g.dropWhile (fun r => r.rby.isSome)).all (fun r => r.rby.isNone))
            && (carrierRbys g).all (fun v => 0 < v)
            && consecFromB prev (carrierRbys g)) := by
  intro g
  induction g with
  | nil =>
    intro prev
    cases prev <;> rfl
  | cons r rest ih =>
    intro prev
    cases hrby : r.rby with
    | some v =>
      have hcar : carrierRbys (r :: rest) = v :: carrierRbys rest := by
        simp [carrierRbys, List.takeWhile_cons, hrby]
      have hdrop : (r :: rest).dropWhile (fun r => r.rby.isSome)
          = rest.dropWhile (fun r => r.rby.isSome) := by
        simp [List.dropWhile_cons, hrby]
      by_cases hv : v ≤ 0
      · have hvp : (decide (0 < v)) = false := by simp; omega
        have hlhs : acceptGroup prev false (r :: rest) = false := by
          simp [acceptGroup, hrby, hv]
        rw [hlhs, hcar, List.all_cons, hvp]
        simp
      · have hvp : (decide (0 < v)) = true := by simp; omega
        cases prev with
        | none =>
          rw [hcar, hdrop, consecFromB_none, consecB_cons, List.all_cons, hvp,
            Bool.true_and]
          have hlhs : acceptGroup none false (r :: rest)
              = acceptGroup (some v) false rest := by
            simp [acceptGroup, hrby, hv]
          rw [hlhs, ih (some v)]
        | some pv =>
          rw [hcar, hdrop, consecFromB_some_cons, consecB_cons, List.all_cons,
            hvp, Bool.true_and]
          by_cases hc : v = pv + 1
          · have hb : (v == pv + 1) = true := by simp [hc]
            rw [hb, Bool.true_and]
            have hlhs : acceptGroup (some pv) false (r :: rest)
                = acceptGroup (some v) false rest := by
              simp [acceptGroup, hrby, hv, hb]
            rw [hlhs, ih (some v)]
          · have hb : (v == pv + 1) = false := by simp [hc]
            rw [hb]
            have hlhs : acceptGroup (some pv) false (r :: rest) = false := by
              simp [acceptGroup, hrby, hv, hc]
            rw [hlhs]
            simp
    | none =>
      have hcar : carrierRbys (r :: rest) = [] := by
        simp [carrierRbys, List.takeWhile_cons, hrby]
      have hdrop : (r :: rest).dropWhile (fun r => r.rby.isSome)
          = r :: rest := by
        simp [List.dropWhile_cons, hrby]
      have hlhs : acceptGroup prev false (r :: rest)
          = acceptGroup prev true rest := by
        simp [acceptGroup, hrby]
      rw [hlhs, acceptGroup_true_dash, hcar, hdrop, consecFromB_nil,
        List.all_cons]
      simp [hrby]

theorem acceptGroup_eq_groupOkB (g : List Row) :
    acceptGroup none false g = groupOkB g := by
  rw [acceptGroup_false_eq, groupOkB, consecFromB_none]

theorem chunkByYear_rows_mem :
    ∀ (rows : List Row) (c : Int × List Row), c ∈ chunkByYear rows →
      ∀ r ∈ c.2, r ∈ rows := by
  intro rows
  induction rows with
  | nil => intro c hc; cases hc
  | cons y xs ih =>
    intro c hc r hr
    cases hcc : chunkByYear xs with
    | nil =>
      simp only [chunkByYear, hcc] at hc
      rcases List.mem_singleton.mp hc with rfl
      rcases List.mem_singleton.mp hr with rfl
      exact List.mem_cons_self r xs
    | cons c1 gs =>
      simp only [chunkByYear, hcc] at hc
      obtain ⟨yy, g⟩ := c1
      by_cases hy : yy = y.year
      · rw [if_pos hy] at hc
        rcases List.mem_cons.mp hc with rfl | hc2
        · rcases List.mem_cons.mp hr with rfl | hr2
          · exact List.mem_cons_self r xs
          · exact List.mem_cons_of_mem y
              (ih (yy, g) (by rw [hcc]; simp) r hr2)
        · exact List.mem_cons_of_mem y (ih c (by rw [hcc]; simp [hc2]) r hr)
      · rw [if_neg hy] at hc
        rcases List.mem_cons.mp hc with rfl | hc2
        · rcases List.mem_singleton.mp hr with rfl
          exact List.mem_cons_self r xs
        · exact List.mem_cons_of_mem y (ih c (by rw [hcc]; exact hc2) r hr)

theorem firstOccKeys_of_nodup :
    ∀ chunks : List (Int × List Row), ((chunks.map Prod.fst).Nodup) →
      firstOccKeys chunks = chunks.map Prod.fst := by
  intro chunks
  induction chunks with
  | nil => intro _; rfl
  | cons c rest ih =>
    intro hnd
    rw [List.map_cons] at hnd
    obtain ⟨c1, c2⟩ := c
    rw [firstOccKeys, ih (List.nodup_cons.mp hnd).2, List.map_cons]
    congr 1
    rw [List.filter_eq_self]
    intro y hy
    have : c1 ∉ rest.map Prod.fst := (List.nodup_cons.mp hnd).1
    simp only [decide_eq_true_eq]
    intro he
    exact this (he ▸ hy)

theorem groupedDict_of_nodup :
    ∀ chunks : List (Int × List Row), ((chunks.map Prod.fst).Nodup) →
      groupedDict chunks = chunks := by
  intro chunks hnd
  rw [groupedDict, firstOccKeys_of_nodup chunks hnd]
  induction chunks with
  | nil => rfl
  | cons c rest ih =>
    rw [List.map_cons] at hnd
    obtain ⟨c1, c2⟩ := c
    rw [List.map_cons, List.map_cons]
    have hself : lastChunk ((c1, c2) :: rest) c1 = c2 := by
      rw [lastChunk]
      have hrest : rest.filter (fun c => c.1 == c1) = [] := by
        rw [List.filter_eq_nil_iff]
        intro c3 hc3 hc3e
        have : c1 ∉ rest.map Prod.fst := (List.nodup_cons.mp hnd).1
        apply this
        have : c3.1 = c1 := by simpa using hc3e
        exact this ▸ List.mem_map_of_mem Prod.fst hc3
      rw [List.filter_cons_of_pos (by simp), hrest]
      rfl
    rw [hself]
    have htail : (rest.map Prod.fst).map
        (fun y => (y, lastChunk ((c1, c2) :: rest) y))
        = (rest.map Prod.fst).map (fun y => (y, lastChunk rest y)) := by
      refine List.map_congr_left (fun y hy => ?_)
      have hne : ¬ (c1 = y) := by
        intro he
        exact (List.nodup_cons.mp hnd).1 (he ▸ hy)
      rw [lastChunk, lastChunk, List.filter_cons_of_neg (by simp [hne])]
    rw [htail, ih (List.nodup_cons.mp hnd).2]

theorem foldGroups_isOk (rows : List Row) :
    ∀ (gs : List (Int × List Row)) (st : List Row),
      (∀ c ∈ gs, ∀ r ∈ c.2, r ∈ rows) →
      (gs.foldlM (fun st g => goGroup rows (consecutiveRuns (sortRanks rows))
          g.2 st none false) st).isOk
        = gs.all (fun c => acceptGroup none false c.2) := by
  intro gs
  induction gs with
  | nil => intro st _; rfl
  | cons c gs ih =>
    intro st hmem
    rw [List.foldlM_cons]
    cases hg : goGroup rows (consecutiveRuns (sortRanks rows)) c.2 st none false with
    | error e =>
      have hacc : acceptGroup none false c.2 = false := by
        have hiso := goGroup_isOk_eq rows c.2 st none false
          (by intro pv h; cases h) (hmem c (List.mem_cons_self c gs))
        rw [hg] at hiso
        exact hiso.symm
      simp only [List.all_cons, hacc, Bool.false_and]
      rfl
    | ok st2 =>
      have hacc : acceptGroup none false c.2 = true := by
        have := goGroup_isOk_eq rows c.2 st none false
          (by intro pv h; cases h) (hmem c (List.mem_cons_self c gs))
        rw [hg] at this
        exact this.symm
      have hih := ih st2 (fun c2 hc2 => hmem c2 (List.mem_cons_of_mem c hc2))
      simp [hg, List.all_cons, hacc]
      exact hih

/-- C5, amended.  With each year forming one contiguous block of the
input (the pipeline input is sorted by year), group-sequence edge
building succeeds iff every year group is valid: its `Rank by year`
carriers form a prefix of positive values each equal to the previous
plus one — the first value is arbitrary, *not* necessarily 1 — and no
carrier follows a row without a value.  A gap such as `[1, 3]` still
fails. -/
theorem c5_sequencing_iff (rows : List Row)
    (hyears : ((chunkByYear rows).map Prod.fst).Nodup) :
    (computeEdgesByYear rows).isOk = true
      ↔ ∀ c ∈ chunkByYear rows, groupOkB c.2 = true := by
  unfold computeEdgesByYear
  rw [groupedDict_of_nodup _ hyears,
    foldGroups_isOk rows _ rows (fun c hc => chunkByYear_rows_mem rows c hc)]
  rw [List.all_eq_true]
  constructor
  · intro h c hc
    rw [← acceptGroup_eq_groupOkB]
    exact h c hc
  · intro h c hc
    rw [acceptGroup_eq_groupOkB]
    exact h c hc

/-- C5, amended, witness: the Scenario A rows satisfy every group
condition, and edge construction indeed succeeds on them. -/
theorem c5_sequencing_iff_witness : (computeEdgesByYear scRows).isOk = true :=
  (c5_sequencing_iff scRows (by decide)).mpr (by decide)

/-! ## Claim C7 -/

theorem mem_filterMap_lookup {st : List Row} {l : List Nat} {k : Row}
    (hk : k ∈ l.filterMap (lookupRow st)) : lookupRow st k.hash = some k := by
  obtain ⟨x, _, hlk⟩ := List.mem_filterMap.mp hk
  rw [lookupRow_hash hlk]
  exact hlk

theorem filterMap_lookup_of_mem (st : List Row) :
    ∀ ks : List Row, (∀ k ∈ ks, lookupRow st k.hash = some k) →
      (ks.map (·.hash)).filterMap (lookupRow st) = ks := by
  intro ks
  induction ks with
  | nil => intro _; rfl
  | cons k ks ih =>
    intro hks
    rw [List.map_cons, List.filterMap_cons, hks k (List.mem_cons_self k ks),
      ih (fun y hy => hks y (List.mem_cons_of_mem k hy))]

theorem hash_mem_of_mem_filterMap_lookup {st : List Row} {l : List Nat} {k : Row}
    (hk : k ∈ l.filterMap (lookupRow st)) : k.hash ∈ l := by
  obtain ⟨x, hx, hlk⟩ := List.mem_filterMap.mp hk
  rw [lookupRow_hash hlk]
  exact hx

theorem predRows_hash_nodup (st : List Row) :
    ∀ l : List Nat, l.Nodup → ((l.filterMap (lookupRow st)).map (·.hash)).Nodup := by
  intro l
  induction l with
  | nil => intro _; exact List.nodup_nil
  | cons x l ih =>
    intro hnd
    rw [List.filterMap_cons]
    cases hx : lookupRow st x with
    | none => exact ih hnd.of_cons
    | some a =>
      show ((a :: l.filterMap (lookupRow st)).map (·.hash)).Nodup
      rw [List.map_cons]
      refine List.nodup_cons.mpr ⟨?_, ih hnd.of_cons⟩
      intro hmem
      obtain ⟨k, hk, hkh⟩ := List.mem_map.mp hmem
      have hmem2 : k.hash ∈ l := hash_mem_of_mem_filterMap_lookup hk
      rw [hkh, lookupRow_hash hx] at hmem2
      exact (List.nodup_cons.mp hnd).1 hmem2

theorem sorted_rankLe_le_getLast? :
    ∀ l : List Row, List.Sorted rankLe l →
      ∀ m, l.getLast? = some m → ∀ a ∈ l, rankKey a ≤ rankKey m := by
  intro l
  induction l with
  | nil => intro _ m hm; cases hm
  | cons x xs ih =>
    intro hs m hm a ha
    cases hxs : xs with
    | nil =>
      subst hxs
      have hmx : m = x := by
        have : (([x] : List Row)).getLast? = some x := rfl
        rw [this] at hm
        cases hm
        rfl
      rcases List.mem_singleton.mp ha with rfl
      exact hmx ▸ le_refl (rankKey a)
    | cons y ys =>
      subst hxs
      have hm2 : (y :: ys).getLast? = some m := by
        rw [← List.getLast?_cons_cons]
        exact hm
      rcases List.mem_cons.mp ha with rfl | ha
      · have hx := (List.sorted_cons.mp hs).1
        obtain ⟨hne, heq⟩ := List.mem_getLast?_eq_getLast (by rw [hm2]; rfl)
        exact heq ▸ hx _ (List.getLast_mem hne)
      · exact ih (List.sorted_cons.mp hs).2 m hm2 a ha

theorem filter_comm_bool {α : Type} (p q : α → Bool) (l : List α) :
    (l.filter p).filter q = (l.filter q).filter p := by
  rw [List.filter_filter, List.filter_filter]
  exact List.filter_congr (fun a _ => Bool.and_comm _ _)

/-- The combinatorial core of `remove_extra_afters` on one predecessor
list: the kept rows hold exactly one ranked row (the one sorting last,
a maximum by rank) and all the unranked ones. -/
theorem kept_filter_spec (pr : List Row)
    (hnd : (pr.map (·.hash)).Nodup)
    (hlen : (pr.filter (hasRank ·)).length > 1) :
    ∃ best, best ∈ pr.filter (hasRank ·)
      ∧ (∀ p ∈ pr.filter (hasRank ·), rankKey p ≤ rankKey best)
      ∧ (keptRows pr).filter (hasRank ·) = [best]
      ∧ (keptRows pr).filter (fun a => ¬ hasRank a)
          = pr.filter (fun a => ¬ hasRank a)
      ∧ ∀ p ∈ pr.filter (hasRank ·), p ≠ best →
          ∀ k ∈ keptRows pr, k.hash ≠ p.hash := by
  have hperm : (List.insertionSort rankLe (pr.filter (hasRank ·))).Perm
      (pr.filter (hasRank ·)) := List.perm_insertionSort rankLe _
  have hsorted : (List.insertionSort rankLe (pr.filter (hasRank ·))).Sorted rankLe :=
    List.sorted_insertionSort rankLe _
  have hspne : List.insertionSort rankLe (pr.filter (hasRank ·)) ≠ [] := by
    intro he
    have hl := hperm.length_eq
    rw [he] at hl
    simp at hl
    omega
  obtain ⟨best, hbest⟩ : ∃ b,
      (List.insertionSort rankLe (pr.filter (hasRank ·))).getLast? = some b :=
    ⟨_, List.getLast?_eq_getLast_of_ne_nil hspne⟩
  have hbest_sp : best ∈ List.insertionSort rankLe (pr.filter (hasRank ·)) := by
    obtain ⟨hne, heq⟩ := List.mem_getLast?_eq_getLast (by rw [hbest]; rfl)
    exact heq ▸ List.getLast_mem hne
  have hbest_rp : best ∈ pr.filter (hasRank ·) := hperm.subset hbest_sp
  have hdec : (List.insertionSort rankLe (pr.filter (hasRank ·))).dropLast ++ [best]
      = List.insertionSort rankLe (pr.filter (hasRank ·)) :=
    List.dropLast_append_getLast? best hbest
  have hrp_nd : ((pr.filter (hasRank ·)).map (·.hash)).Nodup :=
    hnd.sublist ((List.filter_sublist pr).map (·.hash))
  have hsp_nd : ((List.insertionSort rankLe (pr.filter (hasRank ·))).map (·.hash)).Nodup :=
    (hperm.map (·.hash)).nodup_iff.mpr hrp_nd
  have hbest_not_bc : ∀ b ∈ (List.insertionSort rankLe
      (pr.filter (hasRank ·))).dropLast, b.hash ≠ best.hash := by
    intro b hb heq
    rw [← hdec, List.map_append] at hsp_nd
    have hdisj := List.disjoint_of_nodup_append hsp_nd
    exact hdisj (List.mem_map_of_mem (·.hash) hb) (by simp [heq])
  have hmax : ∀ p ∈ pr.filter (hasRank ·), rankKey p ≤ rankKey best := by
    intro p hp
    exact sorted_rankLe_le_getLast? _ hsorted best hbest p (hperm.mem_iff.mpr hp)
  have hkeep_best : (List.insertionSort rankLe
      (pr.filter (hasRank ·))).dropLast.any (fun b => b.hash == best.hash) = false := by
    rw [List.any_eq_false]
    intro b hb
    simpa using hbest_not_bc b hb
  have hkeep_unranked : ∀ a ∈ pr, ¬ hasRank a →
      (List.insertionSort rankLe
        (pr.filter (hasRank ·))).dropLast.any (fun b => b.hash == a.hash) = false := by
    intro a ha hra
    rw [List.any_eq_false]
    intro b hb
    simp only [beq_iff_eq]
    intro heq
    have hb_sp : b ∈ List.insertionSort rankLe (pr.filter (hasRank ·)) :=
      (List.dropLast_sublist _).subset hb
    have hb_rp : b ∈ pr.filter (hasRank ·) := hperm.subset hb_sp
    have hb_pr : b ∈ pr := (List.mem_filter.mp hb_rp).1
    have hb_rk : hasRank b := by
      have := (List.mem_filter.mp hb_rp).2
      simpa using this
    have : b = a := List.inj_on_of_nodup_map hnd hb_pr ha heq
    rw [this] at hb_rk
    exact hra hb_rk
  have hdropfalse : ∀ b ∈ (List.insertionSort rankLe
      (pr.filter (hasRank ·))).dropLast,
      (List.insertionSort rankLe
        (pr.filter (hasRank ·))).dropLast.any (fun c => c.hash == b.hash) = true := by
    intro b hb
    rw [List.any_eq_true]
    exact ⟨b, hb, by simp⟩
  have hkeepform : ∀ a : Row,
      ((fun r2 => decide (¬ ((List.insertionSort rankLe
          (pr.filter (hasRank ·))).dropLast.any (fun b => b.hash == r2.hash)
            = true))) a) = true
        ↔ (List.insertionSort rankLe (pr.filter (hasRank ·))).dropLast.any
            (fun b => b.hash == a.hash) = false := by
    intro a
    cases hx : (List.insertionSort rankLe (pr.filter (hasRank ·))).dropLast.any
        (fun b => b.hash == a.hash) <;> simp [hx]
  have hfilter_sp : (List.insertionSort rankLe
      (pr.filter (hasRank ·))).filter (fun r2 =>
        ¬ ((List.insertionSort rankLe (pr.filter (hasRank ·))).dropLast.any
          (fun b => b.hash == r2.hash))) = [best] := by
    conv_lhs => rw [← hdec]
    rw [List.dropLast_concat, List.filter_append]
    have h1 : (List.insertionSort rankLe
        (pr.filter (hasRank ·))).dropLast.filter (fun r2 =>
          ¬ ((List.insertionSort rankLe (pr.filter (hasRank ·))).dropLast.any
            (fun b => b.hash == r2.hash))) = [] := by
      rw [List.filter_eq_nil_iff]
      intro b hb
      simp [hdropfalse b hb]
    have h2 : ([best] : List Row).filter (fun r2 =>
        ¬ ((List.insertionSort rankLe (pr.filter (hasRank ·))).dropLast.any
          (fun b => b.hash == r2.hash))) = [best] := by
      rw [List.filter_eq_self]
      intro b hb
      rcases List.mem_singleton.mp hb with rfl
      simp [hkeep_best]
    rw [h1, h2]
    rfl
  refine ⟨best, hbest_rp, hmax, ?_, ?_, ?_⟩
  · rw [keptRows, filter_comm_bool]
    have hpf := (hperm.symm.filter (fun r2 =>
      decide (¬ ((List.insertionSort rankLe (pr.filter (hasRank ·))).dropLast.any
        (fun b => b.hash == r2.hash) = true))))
    rw [hfilter_sp] at hpf
    exact List.perm_singleton.mp hpf
  · rw [keptRows, filter_comm_bool]
    rw [List.filter_eq_self.mpr]
    intro a ha
    have hmem := List.mem_filter.mp ha
    have hnr : ¬ hasRank a := by
      have := hmem.2
      simpa using this
    rw [hkeepform a]
    exact hkeep_unranked a hmem.1 hnr
  · intro p hp hpne k hk heq
    have hp_sp : p ∈ List.insertionSort rankLe (pr.filter (hasRank ·)) :=
      hperm.mem_iff.mpr hp
    have hp_dl : p ∈ (List.insertionSort rankLe (pr.filter (hasRank ·))).dropLast := by
      rw [← hdec] at hp_sp
      rcases List.mem_append.mp hp_sp with h | h
      · exact h
      · exact absurd (List.mem_singleton.mp h) hpne
    have hkk := (List.mem_filter.mp hk).2
    rw [hkeepform k] at hkk
    have := List.any_eq_false.mp hkk p hp_dl
    simp only [beq_iff_eq] at this
    exact this (heq ▸ rfl)

theorem reduceRow_hash (st : List Row) (r : Row) :
    (reduceRow st r).hash = r.hash := by
  rw [reduceRow]
  split <;> rfl

theorem reduceRow_of_long (st : List Row) (r : Row)
    (hlen : ((r.after.filterMap (lookupRow st)).filter (hasRank ·)).length > 1) :
    reduceRow st r
      = { r with after := (keptRows (r.after.filterMap (lookupRow st))).map (·.hash) } := by
  rw [reduceRow, keptRows]
  rw [if_pos hlen]

/-- C7.  After the Edge Reducer runs, an item that had more than one
ranked direct predecessor retains exactly one ranked direct predecessor
— one of maximal rank — while its unranked predecessors are untouched;
each dropped ranked predecessor is gone from the item's `After` list
and the item is gone from the dropped predecessor's derived successor
set. -/
theorem c7_reducer (st : List Row)
    (hnd : (st.map (·.hash)).Nodup)
    (hna : ∀ r ∈ st, r.after.Nodup) :
    ∀ r ∈ st,
      ((r.after.filterMap (lookupRow st)).filter (hasRank ·)).length > 1 →
      ∃ r' best,
        lookupRow (removeExtraAfters st) r.hash = some r'
        ∧ best ∈ (r.after.filterMap (lookupRow st)).filter (hasRank ·)
        ∧ (∀ p ∈ (r.after.filterMap (lookupRow st)).filter (hasRank ·),
            rankKey p ≤ rankKey best)
        ∧ (r'.after.filterMap (lookupRow st)).filter (hasRank ·) = [best]
        ∧ (r'.after.filterMap (lookupRow st)).filter (fun a => ¬ hasRank a)
            = (r.after.filterMap (lookupRow st)).filter (fun a => ¬ hasRank a)
        ∧ ∀ p ∈ (r.after.filterMap (lookupRow st)).filter (hasRank ·),
            p ≠ best →
              p.hash ∉ r'.after
              ∧ r.hash ∉ succOf (removeExtraAfters st) p.hash := by
  intro r hr hlen
  have hlk : lookupRow (removeExtraAfters st) r.hash = some (reduceRow st r) := by
    rw [removeExtraAfters, lookupRow_map st (reduceRow st) (reduceRow_hash st),
      lookupRow_self hnd hr]
    rfl
  have hnd_pr : ((r.after.filterMap (lookupRow st)).map (·.hash)).Nodup :=
    predRows_hash_nodup st r.after (hna r hr)
  obtain ⟨best, hb1, hb2, hb3, hb4, hb5⟩ :=
    kept_filter_spec (r.after.filterMap (lookupRow st)) hnd_pr hlen
  have hred := reduceRow_of_long st r hlen
  have hafter : (reduceRow st r).after
      = (keptRows (r.after.filterMap (lookupRow st))).map (·.hash) := by
    rw [hred]
  have hkept_sub : ∀ k ∈ keptRows (r.after.filterMap (lookupRow st)),
      k ∈ r.after.filterMap (lookupRow st) := by
    intro k hk
    exact (List.mem_filter.mp hk).1
  have hlkkept : (reduceRow st r).after.filterMap (lookupRow st)
      = keptRows (r.after.filterMap (lookupRow st)) := by
    rw [hafter]
    exact filterMap_lookup_of_mem st _
      (fun k hk => mem_filterMap_lookup (hkept_sub k hk))
  refine ⟨reduceRow st r, best, hlk, hb1, hb2, ?_, ?_, ?_⟩
  · rw [hlkkept]
    exact hb3
  · rw [hlkkept]
    exact hb4
  · intro p hp hpb
    constructor
    · intro hmem
      rw [hafter] at hmem
      obtain ⟨k, hk, hkh⟩ := List.mem_map.mp hmem
      exact hb5 p hp hpb k hk hkh
    · intro hmem
      rw [succOf] at hmem
      obtain ⟨row, hrow, hrowh⟩ := List.mem_map.mp hmem
      have hrow2 := List.mem_filter.mp hrow
      obtain ⟨r2, hr2, hr2e⟩ := List.mem_map.mp hrow2.1
      have hrh : r2.hash = r.hash := by
        rw [← hrowh, ← hr2e, reduceRow_hash]
      have : r2 = r := List.inj_on_of_nodup_map hnd hr2 hr hrh
      subst this
      have hpmem : p.hash ∈ (reduceRow st r2).after := by
        have h2 := hrow2.2
        rw [← hr2e] at h2
        simpa using h2
      rw [hafter] at hpmem
      obtain ⟨k, hk, hkh⟩ := List.mem_map.mp hpmem
      exact hb5 p hp hpb k hk hkh

/-- C7, witness: the reducer applied to `reducedRows`, where row `#4`
has the two ranked direct predecessors `#1` (1001) and `#2` (1005) and
the unranked `#3`. -/
theorem c7_reducer_witness :
    ∃ r' best,
      lookupRow (removeExtraAfters reducedRows)
          ({ hash := 4, year := 1970, after := [1, 3, 2] } : Row).hash = some r'
      ∧ best ∈ ((([1, 3, 2] : List Nat)).filterMap
          (lookupRow reducedRows)).filter (hasRank ·)
      ∧ (∀ p ∈ ((([1, 3, 2] : List Nat)).filterMap
            (lookupRow reducedRows)).filter (hasRank ·), rankKey p ≤ rankKey best)
      ∧ (r'.after.filterMap (lookupRow reducedRows)).filter (hasRank ·) = [best]
      ∧ (r'.after.filterMap (lookupRow reducedRows)).filter (fun a => ¬ hasRank a)
          = ((([1, 3, 2] : List Nat)).filterMap
              (lookupRow reducedRows)).filter (fun a => ¬ hasRank a)
      ∧ ∀ p ∈ ((([1, 3, 2] : List Nat)).filterMap
            (lookupRow reducedRows)).filter (hasRank ·),
          p ≠ best →
            p.hash ∉ r'.after
            ∧ ({ hash := 4, year := 1970, after := [1, 3, 2] } : Row).hash
                ∉ succOf (removeExtraAfters reducedRows) p.hash :=
  c7_reducer reducedRows (by decide) (by decide)
    { hash := 4, year := 1970, after := [1, 3, 2] } (by decide) (by decide)

/-! ## Claim C8 -/

/-! ## Replaying edge lists (claims C6, C9) -/

theorem foldSet_cons (st : List Row) (e : Nat × Nat) (es : List (Nat × Nat)) :
    foldSet st (e :: es) = foldSet (setAfter st e.1 e.2) es := rfl

theorem foldSet_append (st : List Row) (es1 es2 : List (Nat × Nat)) :
    foldSet st (es1 ++ es2) = foldSet (foldSet st es1) es2 := by
  rw [foldSet, foldSet, foldSet, List.foldl_append]

theorem lookupRow_setAfter (st : List Row) (t a h : Nat) :
    lookupRow (setAfter st t a) h
      = (lookupRow st h).map (fun r =>
          if r.hash == t then
            (if a ∈ r.after then r else { r with after := r.after ++ [a] })
          else r) := by
  rw [setAfter]
  exact lookupRow_updRow st t _ (fun r => by split <;> rfl) h

theorem afterOf_setAfter_ne (st : List Row) (t a h : Nat) (hne : t ≠ h) :
    afterOf (setAfter st t a) h = afterOf st h := by
  rw [afterOf, afterOf, lookupRow_setAfter]
  cases hl : lookupRow st h with
  | none => rfl
  | some r =>
    have hrh : r.hash = h := lookupRow_hash hl
    simp [hrh, Ne.symm hne]

theorem afterOf_setAfter_self (st : List Row) (a h : Nat) (r : Row)
    (hl : lookupRow st h = some r) :
    afterOf (setAfter st h a) h
      = if a ∈ r.after then r.after else r.after ++ [a] := by
  rw [afterOf, lookupRow_setAfter, hl]
  have hrh : r.hash = h := lookupRow_hash hl
  by_cases hm : a ∈ r.after <;> simp [hrh, hm]

theorem lookupRow_setAfter_isSome (st : List Row) (t a h : Nat) :
    (lookupRow (setAfter st t a) h).isSome = (lookupRow st h).isSome := by
  rw [lookupRow_setAfter]
  cases lookupRow st h <;> rfl

theorem lookupRow_setAfter_rank (st : List Row) (t a h : Nat) :
    (lookupRow (setAfter st t a) h).map (·.rank)
      = (lookupRow st h).map (·.rank) := by
  rw [lookupRow_setAfter]
  cases lookupRow st h with
  | none => rfl
  | some r =>
    simp only [Option.map_some']
    congr 1
    split
    · split <;> rfl
    · rfl

theorem setAfter_map_hash (st : List Row) (t a : Nat) :
    (setAfter st t a).map (·.hash) = st.map (·.hash) := by
  rw [setAfter, updRow, List.map_map]
  refine List.map_congr_left (fun r _ => ?_)
  simp only [Function.comp]
  split
  · split <;> rfl
  · rfl

theorem foldSet_map_hash (es : List (Nat × Nat)) :
    ∀ st : List Row, (foldSet st es).map (·.hash) = st.map (·.hash) := by
  induction es with
  | nil => intro st; rfl
  | cons e es ih => intro st; rw [foldSet_cons, ih, setAfter_map_hash]

theorem foldSet_lookup_rank (es : List (Nat × Nat)) :
    ∀ (st : List Row) (h : Nat),
      (lookupRow (foldSet st es) h).map (·.rank)
        = (lookupRow st h).map (·.rank) := by
  induction es with
  | nil => intro st h; rfl
  | cons e es ih => intro st h; rw [foldSet_cons, ih, lookupRow_setAfter_rank]

theorem foldSet_lookup_isSome (es : List (Nat × Nat)) :
    ∀ (st : List Row) (h : Nat),
      (lookupRow (foldSet st es) h).isSome = (lookupRow st h).isSome := by
  induction es with
  | nil => intro st h; rfl
  | cons e es ih =>
    intro st h
    rw [foldSet_cons, ih, lookupRow_setAfter_isSome]

theorem foldSet_afterOf_untargeted (es : List (Nat × Nat)) :
    ∀ (st : List Row) (h : Nat), h ∉ es.map (·.1) →
      afterOf (foldSet st es) h = afterOf st h := by
  induction es with
  | nil => intro st h _; rfl
  | cons e es ih =>
    intro st h hni
    rw [foldSet_cons, ih _ _ (fun hm => hni (List.mem_cons_of_mem _ hm)),
      afterOf_setAfter_ne]
    intro he
    exact hni (by rw [List.map_cons, he]; exact List.mem_cons_self h _)

/-- Replaying an edge list with pairwise distinct targets onto a state
with an empty `After` at `h` records exactly the antecedents aimed at
`h`, in order. -/
theorem foldSet_afterOf (es : List (Nat × Nat)) :
    ∀ (st : List Row) (h : Nat),
      (es.map (·.1)).Nodup →
      afterOf st h = [] →
      (∀ p ∈ es, (lookupRow st p.1).isSome = true) →
      afterOf (foldSet st es) h
        = (es.filter (fun p => p.1 == h)).map (·.2) := by
  induction es with
  | nil =>
    intro st h _ hemp _
    simpa [foldSet] using hemp
  | cons e es ih =>
    intro st h hnd hemp hin
    rw [List.map_cons] at hnd
    have hnd1 := (List.nodup_cons.mp hnd).1
    have hnd2 := (List.nodup_cons.mp hnd).2
    rw [foldSet_cons]
    by_cases hc : e.1 = h
    · subst hc
      have hfil : es.filter (fun p => p.1 == e.1) = [] := by
        rw [List.filter_eq_nil_iff]
        intro p hp hph
        apply hnd1
        have hpe : p.1 = e.1 := by simpa using hph
        exact hpe ▸ List.mem_map_of_mem (·.1) hp
      rw [foldSet_afterOf_untargeted es _ e.1 hnd1]
      obtain ⟨r, hl⟩ := Option.isSome_iff_exists.mp
        (hin e (List.mem_cons_self e es))
      have hra : r.after = [] := by
        rw [afterOf, hl] at hemp
        simpa using hemp
      rw [afterOf_setAfter_self st e.2 e.1 r hl, hra,
        List.filter_cons_of_pos (by simp), hfil]
      simp
    · have hb : (e.1 == h) = false := beq_eq_false_iff_ne.mpr hc
      have hemp2 : afterOf (setAfter st e.1 e.2) h = [] := by
        rw [afterOf_setAfter_ne st e.1 e.2 h hc]
        exact hemp
      have hin2 : ∀ p ∈ es,
          (lookupRow (setAfter st e.1 e.2) p.1).isSome = true := by
        intro p hp
        rw [lookupRow_setAfter_isSome]
        exact hin p (List.mem_cons_of_mem e hp)
      rw [ih (setAfter st e.1 e.2) h hnd2 hemp2 hin2,
        List.filter_cons_of_neg (by simp [hb])]

/-- Replaying an edge list that aims at `h` at most once either leaves
the `After` at `h` alone or appends the one antecedent aimed at it. -/
theorem foldSet_afterOf_le_one (es : List (Nat × Nat)) :
    ∀ (st : List Row) (h : Nat),
      (es.filter (fun p => p.1 == h)).length ≤ 1 →
      afterOf (foldSet st es) h = afterOf st h
      ∨ ∃ a, (h, a) ∈ es ∧ a ∉ afterOf st h
          ∧ afterOf (foldSet st es) h = afterOf st h ++ [a] := by
  induction es with
  | nil => intro st h _; exact Or.inl rfl
  | cons e es ih =>
    intro st h hlen
    rw [foldSet_cons]
    by_cases hc : e.1 = h
    · subst hc
      rw [List.filter_cons_of_pos (by simp)] at hlen
      have hfil : es.filter (fun p => p.1 == e.1) = [] := by
        cases hf : es.filter (fun p => p.1 == e.1) with
        | nil => rfl
        | cons x xs =>
          exfalso
          rw [hf] at hlen
          simp at hlen
      have hnotin : e.1 ∉ es.map (·.1) := by
        intro hm
        obtain ⟨p, hp, hph⟩ := List.mem_map.mp hm
        have hpm : p ∈ es.filter (fun p => p.1 == e.1) :=
          List.mem_filter.mpr ⟨hp, by simp [hph]⟩
        rw [hfil] at hpm
        cases hpm
      rw [foldSet_afterOf_untargeted es _ e.1 hnotin]
      cases hl : lookupRow st e.1 with
      | none =>
        left
        simp [afterOf, lookupRow_setAfter, hl]
      | some r =>
        rw [afterOf_setAfter_self st e.2 e.1 r hl]
        have hao : afterOf st e.1 = r.after := by
          rw [afterOf, hl]
          rfl
        by_cases hm : e.2 ∈ r.after
        · left
          rw [if_pos hm, hao]
        · right
          exact ⟨e.2, List.mem_cons_self e es, by rw [hao]; exact hm,
            by rw [if_neg hm, hao]⟩
    · have hb : (e.1 == h) = false := beq_eq_false_iff_ne.mpr hc
      rw [List.filter_cons_of_neg (by simp [hb])] at hlen
      have hih := ih (setAfter st e.1 e.2) h hlen
      rw [afterOf_setAfter_ne st e.1 e.2 h hc] at hih
      rcases hih with h1 | ⟨a, ha, hnm, h2⟩
      · exact Or.inl h1
      · exact Or.inr ⟨a, List.mem_cons_of_mem e ha, hnm, h2⟩

/-- In an edge list with pairwise distinct targets, the edges aimed at
a given target reduce to the one that is present. -/
theorem filter_eq_of_mem_nodup {es : List (Nat × Nat)} {h a : Nat}
    (hmem : (h, a) ∈ es) (hnd : (es.map (·.1)).Nodup) :
    es.filter (fun p => p.1 == h) = [(h, a)] := by
  induction es with
  | nil => cases hmem
  | cons e es ih =>
    rw [List.map_cons] at hnd
    have hnd1 := (List.nodup_cons.mp hnd).1
    have hnd2 := (List.nodup_cons.mp hnd).2
    rcases List.mem_cons.mp hmem with he | hm
    · rw [← he] at hnd1 ⊢
      rw [List.filter_cons_of_pos (by simp)]
      have hfil : es.filter (fun p => p.1 == h) = [] := by
        rw [List.filter_eq_nil_iff]
        intro p hp hph
        apply hnd1
        have hpe : p.1 = h := by simpa using hph
        exact hpe ▸ List.mem_map_of_mem (·.1) hp
      rw [hfil]
    · have hh : h ∈ es.map (·.1) := List.mem_map.mpr ⟨(h, a), hm, rfl⟩
      have hne : e.1 ≠ h := fun hEq => hnd1 (hEq ▸ hh)
      rw [List.filter_cons_of_neg (by simp [hne])]
      exact ih hm hnd2

theorem filter_length_le_one_of_nodup {es : List (Nat × Nat)} {h : Nat}
    (hnd : (es.map (·.1)).Nodup) :
    (es.filter (fun p => p.1 == h)).length ≤ 1 := by
  have h1 : (es.map (·.1)).count h
      = (es.filter (fun p => p.1 == h)).length := by
    rw [List.count, List.countP_map, ← List.countP_eq_length_filter]
    rfl
  rw [← h1]
  exact List.nodup_iff_count_le_one.mp hnd h

theorem exceptMap_isOk {ε α β : Type} (f : α → β) (e : Except ε α) :
    (e.map f).isOk = e.isOk := by
  cases e <;> rfl

@[simp] theorem exceptBind_error {ε α β : Type} (e : ε)
    (f : α → Except ε β) :
    (Except.error e >>= f : Except ε β) = Except.error e := rfl

@[simp] theorem exceptBind_ok {ε α β : Type} (a : α) (f : α → Except ε β) :
    (Except.ok a >>= f : Except ε β) = f a := rfl

@[simp] theorem exceptMap_error {ε α β : Type} (f : α → β) (e : ε) :
    (Except.error e : Except ε α).map f = Except.error e := rfl

@[simp] theorem exceptMap_ok {ε α β : Type} (f : α → β) (a : α) :
    (Except.ok a : Except ε α).map f = Except.ok (f a) := rfl

@[simp] theorem exceptFmap_error {ε α β : Type} (f : α → β) (e : ε) :
    (f <$> (Except.error e : Except ε α)) = Except.error e := rfl

@[simp] theorem exceptFmap_ok {ε α β : Type} (f : α → β) (a : α) :
    (f <$> (Except.ok a : Except ε α)) = Except.ok (f a) := rfl

/-- The per-group loop factors into computing the edges and replaying
them: the threaded state never feeds back into which edges are
chosen. -/
theorem goGroup_eq_foldSet (rows : List Row) (runs : List (List Int)) :
    ∀ (g : List Row) (st : List Row) (prev : Option (Int × Row)) (sd : Bool),
      goGroup rows runs g st prev sd
        = (expectedEdges rows runs g prev sd).map (foldSet st) := by
  intro g
  induction g with
  | nil => intro st prev sd; rfl
  | cons r rest ih =>
    intro st prev sd
    cases hrby : r.rby with
    | some v =>
      by_cases hv : v ≤ 0
      · simp [goGroup, expectedEdges, hrby, hv, Except.map]
      · cases prev with
        | none =>
          cases sd with
          | false =>
            simp only [goGroup, expectedEdges, hrby, if_neg hv]
            simp only [Bool.not_false, Bool.true_and, if_true]
            exact ih st (some (v, r)) false
          | true =>
            simp [goGroup, expectedEdges, hrby, hv, Except.map]
        | some pv =>
          by_cases hcond : (!sd && (v == pv.1 + 1)) = true
          · cases hma : mra rows runs pv.2 r with
            | error e =>
              simp [goGroup, expectedEdges, hrby, hv, hcond, hma, Except.map]
            | ok a =>
              have hih := ih (setAfter st r.hash a.hash) (some (v, r)) sd
              cases hee : expectedEdges rows runs rest (some (v, r)) sd with
              | error e =>
                rw [hee] at hih
                simp [goGroup, expectedEdges, hrby, hv, hcond, hma, hee,
                  Except.map, hih]
              | ok es =>
                rw [hee] at hih
                simp [goGroup, expectedEdges, hrby, hv, hcond, hma, hee,
                  Except.map, hih, foldSet_cons]
          · simp [goGroup, expectedEdges, hrby, hv, hcond, Except.map]
    | none =>
      cases prev with
      | some pv =>
        cases hma : mra rows runs pv.2 r with
        | error e =>
          simp [goGroup, expectedEdges, hrby, hma, Except.map]
        | ok a =>
          have hih := ih (setAfter st r.hash a.hash) (some pv) true
          cases hee : expectedEdges rows runs rest (some pv) true with
          | error e =>
            rw [hee] at hih
            simp [goGroup, expectedEdges, hrby, hma, hee, Except.map, hih]
          | ok es =>
            rw [hee] at hih
            simp [goGroup, expectedEdges, hrby, hma, hee, Except.map, hih,
              foldSet_cons]
      | none =>
        simp only [goGroup, expectedEdges, hrby]
        exact ih st none true

/-- Success of the edge computation is the pure group acceptance. -/
theorem expectedEdges_isOk (rows : List Row) (g : List Row)
    (prev : Option (Int × Row)) (sd : Bool)
    (hprev : ∀ pv : Int × Row, prev = some pv → pv.2 ∈ rows)
    (hmem : ∀ r ∈ g, r ∈ rows) :
    (expectedEdges rows (consecutiveRuns (sortRanks rows)) g prev sd).isOk
      = acceptGroup (prev.map (·.1)) sd g := by
  have h1 := goGroup_isOk_eq rows g rows prev sd hprev hmem
  rw [goGroup_eq_foldSet, exceptMap_isOk] at h1
  exact h1

/-- After a dash has been seen, a successful edge computation can only
have seen dash rows. -/
theorem expectedEdges_ok_dash (rows : List Row) (runs : List (List Int)) :
    ∀ (g : List Row) (prev : Option (Int × Row)) (es : List (Nat × Nat)),
      expectedEdges rows runs g prev true = .ok es →
      g.all (fun r => r.rby.isNone) = true := by
  intro g
  induction g with
  | nil => intro prev es _; rfl
  | cons r rest ih =>
    intro prev es hok
    cases hrby : r.rby with
    | some v =>
      exfalso
      by_cases hv : v ≤ 0
      · simp [expectedEdges, hrby, hv] at hok
      · simp [expectedEdges, hrby, hv] at hok
    | none =>
      rw [List.all_cons]
      cases prev with
      | some pv =>
        cases hma : mra rows runs pv.2 r with
        | error e => simp [expectedEdges, hrby, hma] at hok
        | ok a =>
          cases hee : expectedEdges rows runs rest (some pv) true with
          | error e => simp [expectedEdges, hrby, hma, hee] at hok
          | ok es2 =>
            rw [ih (some pv) es2 hee]
            simp [hrby]
      | none =>
        have hok2 : expectedEdges rows runs rest none true = .ok es := by
          simpa [expectedEdges, hrby] using hok
        rw [ih none es hok2]
        simp [hrby]

/-- The targets of the computed edges are, in order, among the group's
row ids. -/
theorem expectedEdges_targets (rows : List Row) (runs : List (List Int)) :
    ∀ (g : List Row) (prev : Option (Int × Row)) (sd : Bool)
      (es : List (Nat × Nat)),
      expectedEdges rows runs g prev sd = .ok es →
      (es.map (·.1)).Sublist (g.map (·.hash)) := by
  intro g
  induction g with
  | nil =>
    intro prev sd es hok
    injection hok with h
    subst h
    simp
  | cons r rest ih =>
    intro prev sd es hok
    cases hrby : r.rby with
    | some v =>
      by_cases hv : v ≤ 0
      · simp [expectedEdges, hrby, hv] at hok
      · cases prev with
        | none =>
          cases sd with
          | false =>
            have hok2 : expectedEdges rows runs rest (some (v, r)) false
                = .ok es := by
              simpa [expectedEdges, hrby, hv] using hok
            exact (ih _ _ _ hok2).trans (List.sublist_cons_self _ _)
          | true => simp [expectedEdges, hrby, hv] at hok
        | some pv =>
          by_cases hcond : (!sd && (v == pv.1 + 1)) = true
          · cases hma : mra rows runs pv.2 r with
            | error e => simp [expectedEdges, hrby, hv, hcond, hma] at hok
            | ok a =>
              cases hee : expectedEdges rows runs rest (some (v, r)) sd with
              | error e =>
                simp [expectedEdges, hrby, hv, hcond, hma, hee] at hok
              | ok es2 =>
                have hes : (r.hash, a.hash) :: es2 = es := by
                  simpa [expectedEdges, hrby, hv, hcond, hma, hee] using hok
                subst hes
                rw [List.map_cons, List.map_cons]
                exact List.Sublist.cons₂ _ (ih _ _ _ hee)
          · simp [expectedEdges, hrby, hv, hcond] at hok
    | none =>
      cases prev with
      | some pv =>
        cases hma : mra rows runs pv.2 r with
        | error e => simp [expectedEdges, hrby, hma] at hok
        | ok a =>
          cases hee : expectedEdges rows runs rest (some pv) true with
          | error e => simp [expectedEdges, hrby, hma, hee] at hok
          | ok es2 =>
            have hes : (r.hash, a.hash) :: es2 = es := by
              simpa [expectedEdges, hrby, hma, hee] using hok
            subst hes
            rw [List.map_cons, List.map_cons]
            exact List.Sublist.cons₂ _ (ih _ _ _ hee)
      | none =>
        have hok2 : expectedEdges rows runs rest none true = .ok es := by
          simpa [expectedEdges, hrby] using hok
        exact (ih _ _ _ hok2).trans (List.sublist_cons_self _ _)

theorem mapM_expected_ok (rows : List Row) (runs : List (List Int)) :
    ∀ (gs : List (Int × List Row)) (ess : List (List (Nat × Nat))),
      gs.mapM (fun c => expectedEdges rows runs c.2 none false) = .ok ess →
      List.Forall₂
        (fun (c : Int × List Row) es =>
          expectedEdges rows runs c.2 none false = .ok es) gs ess := by
  intro gs
  induction gs with
  | nil =>
    intro ess hok
    rw [List.mapM_nil] at hok
    injection hok with h
    subst h
    exact List.Forall₂.nil
  | cons c gs ih =>
    intro ess hok
    rw [List.mapM_cons] at hok
    cases hE : expectedEdges rows runs c.2 none false with
    | error e => rw [hE] at hok; simp at hok
    | ok es =>
      rw [hE] at hok
      cases hM : gs.mapM (fun c => expectedEdges rows runs c.2 none false) with
      | error e => rw [hM] at hok; simp at hok
      | ok ess2 =>
        rw [hM] at hok
        have hes : es :: ess2 = ess := by simpa using hok
        subst hes
        exact List.Forall₂.cons hE (ih ess2 hM)

theorem forallTwo_mem_left {α β : Type} {P : α → β → Prop} :
    ∀ {l1 : List α} {l2 : List β}, List.Forall₂ P l1 l2 →
      ∀ a ∈ l1, ∃ b ∈ l2, P a b := by
  intro l1 l2 hf
  induction hf with
  | nil => intro a ha; cases ha
  | cons hab htail ih =>
    intro a ha
    rcases List.mem_cons.mp ha with rfl | ha2
    · exact ⟨_, List.mem_cons_self _ _, hab⟩
    · obtain ⟨b, hb, hPb⟩ := ih a ha2
      exact ⟨b, List.mem_cons_of_mem _ hb, hPb⟩

theorem targets_flatten_sublist :
    ∀ (gs : List (Int × List Row)) (ess : List (List (Nat × Nat))),
      List.Forall₂ (fun (c : Int × List Row) es =>
        ((es : List (Nat × Nat)).map (·.1)).Sublist (c.2.map (·.hash)))
        gs ess →
      ((ess.flatten).map (·.1)).Sublist
        (((gs.map (·.2)).flatten).map (·.hash)) := by
  intro gs ess hf
  induction hf with
  | nil => simp
  | cons hab htail ih =>
    rw [List.map_cons, List.flatten_cons, List.flatten_cons, List.map_append,
      List.map_append]
    exact List.Sublist.append hab ih

theorem chunkByYear_flatten :
    ∀ rows : List Row, ((chunkByYear rows).map (·.2)).flatten = rows := by
  intro rows
  induction rows with
  | nil => rfl
  | cons r rest ih =>
    cases hcc : chunkByYear rest with
    | nil =>
      rw [hcc] at ih
      simp only [List.map_nil, List.flatten_nil] at ih
      simp [chunkByYear, hcc, ← ih]
    | cons c gs =>
      obtain ⟨y, g⟩ := c
      rw [hcc] at ih
      rw [List.map_cons, List.flatten_cons] at ih
      by_cases hy : y = r.year
      · simp only [chunkByYear, hcc, if_pos hy]
        rw [List.map_cons, List.flatten_cons, List.cons_append, ih]
      · simp only [chunkByYear, hcc, if_neg hy]
        rw [List.map_cons, List.flatten_cons, List.map_cons,
          List.flatten_cons, ih]
        rfl

theorem foldGroups_eq_foldSet (rows : List Row) (runs : List (List Int)) :
    ∀ (gs : List (Int × List Row)) (st : List Row),
      gs.foldlM (fun st g => goGroup rows runs g.2 st none false) st
        = (gs.mapM (fun c => expectedEdges rows runs c.2 none false)).map
            (fun ess => foldSet st ess.flatten) := by
  intro gs
  induction gs with
  | nil =>
    intro st
    rw [List.foldlM_nil, List.mapM_nil]
    rfl
  | cons c gs ih =>
    intro st
    rw [List.foldlM_cons, List.mapM_cons, goGroup_eq_foldSet]
    cases hE : expectedEdges rows runs c.2 none false with
    | error e => simp [Except.map]
    | ok es =>
      cases hM : gs.mapM (fun c => expectedEdges rows runs c.2 none false) with
      | error e =>
        have hih := ih (foldSet st es)
        rw [hM] at hih
        simp [Except.map, hih]
      | ok ess =>
        have hih := ih (foldSet st es)
        rw [hM] at hih
        simp [Except.map, hih, List.flatten_cons, foldSet_append]

theorem computeEdgesByYear_eq_allYearEdges (rows : List Row) :
    computeEdgesByYear rows = (allYearEdges rows).map (foldSet rows) := by
  unfold computeEdgesByYear allYearEdges
  rw [foldGroups_eq_foldSet]
  cases hM : (groupedDict (chunkByYear rows)).mapM
      (fun c => expectedEdges rows (consecutiveRuns (sortRanks rows)) c.2
        none false) with
  | error e => simp [hM, Except.map]
  | ok ess => simp [hM, Except.map]

theorem lookupRow_isSome_of_mem_hash {rows : List Row} {h : Nat}
    (hm : h ∈ rows.map (·.hash)) : (lookupRow rows h).isSome = true := by
  obtain ⟨r, hr, hh⟩ := List.mem_map.mp hm
  rw [lookupRow, List.find?_isSome]
  exact ⟨r, hr, by simp [hh]⟩

/-- First edge stage, solved: on a table with unique ids, one block per
year and empty `After` columns, a successful `compute_edges_by_year`
leaves in each `After` column exactly the computed group-sequence edges
aimed at that row, and the edges aim at pairwise distinct rows. -/
theorem stage1_afterOf (rows : List Row)
    (hnd : (rows.map (·.hash)).Nodup)
    (hyears : ((chunkByYear rows).map Prod.fst).Nodup)
    (hempty : ∀ r ∈ rows, r.after = [])
    (s1 : List Row) (h1 : computeEdgesByYear rows = .ok s1) :
    ∃ esAll, allYearEdges rows = .ok esAll
      ∧ (esAll.map (·.1)).Nodup
      ∧ s1 = foldSet rows esAll
      ∧ ∀ h, afterOf s1 h = (esAll.filter (fun p => p.1 == h)).map (·.2) := by
  rw [computeEdgesByYear_eq_allYearEdges] at h1
  cases hA : allYearEdges rows with
  | error e => rw [hA] at h1; simp [Except.map] at h1
  | ok esAll =>
    rw [hA] at h1
    have hs1 : s1 = foldSet rows esAll := by
      have h2 : Except.ok (ε := SortErr) (foldSet rows esAll) = .ok s1 := h1
      injection h2 with h3
      exact h3.symm
    have hmapM : ∃ ess, (groupedDict (chunkByYear rows)).mapM
        (fun c => expectedEdges rows (consecutiveRuns (sortRanks rows)) c.2
          none false) = .ok ess ∧ esAll = ess.flatten := by
      unfold allYearEdges at hA
      cases hM : (groupedDict (chunkByYear rows)).mapM
          (fun c => expectedEdges rows (consecutiveRuns (sortRanks rows)) c.2
            none false) with
      | error e => rw [hM] at hA; simp at hA
      | ok ess =>
        rw [hM] at hA
        have hA2 : Except.ok (ε := SortErr) ess.flatten = .ok esAll := hA
        injection hA2 with hA3
        exact ⟨ess, rfl, hA3.symm⟩
    obtain ⟨ess, hM, hflat⟩ := hmapM
    rw [groupedDict_of_nodup _ hyears] at hM
    have hfa := mapM_expected_ok rows (consecutiveRuns (sortRanks rows))
      (chunkByYear rows) ess hM
    have hfa2 : List.Forall₂ (fun (c : Int × List Row) es =>
        ((es : List (Nat × Nat)).map (·.1)).Sublist (c.2.map (·.hash)))
        (chunkByYear rows) ess :=
      List.Forall₂.imp
        (fun c es hok => expectedEdges_targets rows _ c.2 none false es hok)
        hfa
    have hsub : ((ess.flatten).map (·.1)).Sublist (rows.map (·.hash)) := by
      have := targets_flatten_sublist (chunkByYear rows) ess hfa2
      rwa [chunkByYear_flatten] at this
    have hndT : ((esAll.map (·.1)).Nodup) := by
      rw [hflat]
      exact List.Nodup.sublist hsub hnd
    refine ⟨esAll, rfl, hndT, hs1, ?_⟩
    intro h
    rw [hs1]
    refine foldSet_afterOf esAll rows h hndT ?_ ?_
    · rw [afterOf]
      cases hl : lookupRow rows h with
      | none => rfl
      | some r => simpa using hempty r (lookupRow_mem hl)
    · intro p hp
      refine lookupRow_isSome_of_mem_hash (hsub.subset ?_)
      rw [← hflat]
      exact List.mem_map_of_mem (·.1) hp

theorem carriersOf_eq_nil_of_all_dash {g : List Row}
    (hall : g.all (fun r => r.rby.isNone) = true) : carriersOf g = [] := by
  cases g with
  | nil => rfl
  | cons x xs =>
    rw [List.all_cons] at hall
    have hx : x.rby = none := by
      rw [Bool.and_eq_true] at hall
      simpa [Option.isNone_iff_eq_none] using hall.1
    simp [carriersOf, List.takeWhile_cons, hx]

theorem dashesOf_eq_self_of_all_dash {g : List Row}
    (hall : g.all (fun r => r.rby.isNone) = true) : dashesOf g = g := by
  cases g with
  | nil => rfl
  | cons x xs =>
    rw [List.all_cons] at hall
    have hx : x.rby = none := by
      rw [Bool.and_eq_true] at hall
      simpa [Option.isNone_iff_eq_none] using hall.1
    simp [dashesOf, List.dropWhile_cons, hx]

/-- What the computed edges of a group contain: one edge per adjacent
carrier pair and one per dash row, each aimed at the later row and
carrying the `max_ranked_after` adjustment of the earlier row (for a
dash row, of the last carrier). -/
theorem expectedEdges_pairs (rows : List Row) (runs : List (List Int)) :
    ∀ (g : List Row) (prev : Option (Int × Row)) (sd : Bool)
      (es : List (Nat × Nat)),
      expectedEdges rows runs g prev sd = .ok es →
      (∀ pq ∈ pairwiseList (carriersOf g),
        ∃ a, mra rows runs pq.1 pq.2 = .ok a ∧ (pq.2.hash, a.hash) ∈ es)
      ∧ (∀ pv : Int × Row, prev = some pv → sd = false →
          ∀ q ∈ (carriersOf g).head?,
            ∃ a, mra rows runs pv.2 q = .ok a ∧ (q.hash, a.hash) ∈ es)
      ∧ (∀ d ∈ dashesOf g, ∀ cn ∈ lastCarrier prev g,
          ∃ a, mra rows runs cn d = .ok a ∧ (d.hash, a.hash) ∈ es) := by
  intro g
  induction g with
  | nil =>
    intro prev sd es hok
    refine ⟨?_, ?_, ?_⟩
    · intro pq hpq
      simp [carriersOf, pairwiseList] at hpq
    · intro pv hpv hsd q hq
      simp [carriersOf] at hq
    · intro d hd
      simp [dashesOf] at hd
  | cons r rest ih =>
    intro prev sd es hok
    cases hrby : r.rby with
    | some v =>
      have hcar : carriersOf (r :: rest) = r :: carriersOf rest := by
        simp [carriersOf, List.takeWhile_cons, hrby]
      have hdash : dashesOf (r :: rest) = dashesOf rest := by
        simp [dashesOf, List.dropWhile_cons, hrby]
      by_cases hv : v ≤ 0
      · simp [expectedEdges, hrby, hv] at hok
      · cases prev with
        | none =>
          cases sd with
          | true => simp [expectedEdges, hrby, hv] at hok
          | false =>
            have hok2 : expectedEdges rows runs rest (some (v, r)) false
                = .ok es := by
              simpa [expectedEdges, hrby, hv] using hok
            obtain ⟨ih1, ih2, ih3⟩ := ih (some (v, r)) false es hok2
            refine ⟨?_, ?_, ?_⟩
            · intro pq hpq
              rw [hcar] at hpq
              cases hcs : carriersOf rest with
              | nil =>
                rw [hcs] at hpq
                simp [pairwiseList] at hpq
              | cons q cs =>
                rw [hcs] at hpq
                have hpl : pairwiseList (r :: q :: cs)
                    = (r, q) :: pairwiseList (q :: cs) := rfl
                rw [hpl] at hpq
                rcases List.mem_cons.mp hpq with rfl | hpq2
                · exact ih2 (v, r) rfl rfl q (by simp [hcs])
                · rw [← hcs] at hpq2
                  exact ih1 pq hpq2
            · intro pv hpv
              cases hpv
            · intro d hd cn hcn
              rw [hdash] at hd
              have hlast : lastCarrier none (r :: rest)
                  = lastCarrier (some (v, r)) rest := by
                rw [lastCarrier, lastCarrier, hcar]
                cases hcs : carriersOf rest with
                | nil => simp
                | cons q cs =>
                  have hgl : (q :: cs).getLast?
                      = some ((q :: cs).getLast (by simp)) :=
                    List.getLast?_eq_getLast_of_ne_nil (by simp)
                  simp [hgl]
              rw [hlast] at hcn
              exact ih3 d hd cn hcn
        | some pv =>
          by_cases hcond : (!sd && (v == pv.1 + 1)) = true
          · have hsd : sd = false := by
              cases sd with
              | false => rfl
              | true => simp at hcond
            subst hsd
            have hvp : v = pv.1 + 1 := by simpa using hcond
            have hbeq : (v == pv.1 + 1) = true := by simp [hvp]
            cases hma : mra rows runs pv.2 r with
            | error e => simp [expectedEdges, hrby, hv, hbeq, hma] at hok
            | ok a =>
              cases hee : expectedEdges rows runs rest (some (v, r)) false with
              | error e =>
                simp [expectedEdges, hrby, hv, hbeq, hma, hee] at hok
              | ok es2 =>
                have hes : (r.hash, a.hash) :: es2 = es := by
                  simpa [expectedEdges, hrby, hv, hbeq, hma, hee] using hok
                subst hes
                obtain ⟨ih1, ih2, ih3⟩ := ih (some (v, r)) false es2 hee
                refine ⟨?_, ?_, ?_⟩
                · intro pq hpq
                  rw [hcar] at hpq
                  cases hcs : carriersOf rest with
                  | nil =>
                    rw [hcs] at hpq
                    simp [pairwiseList] at hpq
                  | cons q cs =>
                    rw [hcs] at hpq
                    have hpl : pairwiseList (r :: q :: cs)
                        = (r, q) :: pairwiseList (q :: cs) := rfl
                    rw [hpl] at hpq
                    rcases List.mem_cons.mp hpq with rfl | hpq2
                    · obtain ⟨a2, ha2, hm2⟩ :=
                        ih2 (v, r) rfl rfl q (by simp [hcs])
                      exact ⟨a2, ha2, List.mem_cons_of_mem _ hm2⟩
                    · rw [← hcs] at hpq2
                      obtain ⟨a2, ha2, hm2⟩ := ih1 pq hpq2
                      exact ⟨a2, ha2, List.mem_cons_of_mem _ hm2⟩
                · intro pv2 hpv2 hsd2 q hq
                  injection hpv2 with hpv2e
                  subst hpv2e
                  rw [hcar] at hq
                  have hqr : r = q := by simpa using hq
                  subst hqr
                  exact ⟨a, hma, List.mem_cons_self _ _⟩
                · intro d hd cn hcn
                  rw [hdash] at hd
                  have hlast : lastCarrier (some pv) (r :: rest)
                      = lastCarrier (some (v, r)) rest := by
                    rw [lastCarrier, lastCarrier, hcar]
                    cases hcs : carriersOf rest with
                    | nil => simp
                    | cons q cs =>
                      have hgl : (q :: cs).getLast?
                          = some ((q :: cs).getLast (by simp)) :=
                        List.getLast?_eq_getLast_of_ne_nil (by simp)
                      simp [hgl]
                  rw [hlast] at hcn
                  obtain ⟨a2, ha2, hm2⟩ := ih3 d hd cn hcn
                  exact ⟨a2, ha2, List.mem_cons_of_mem _ hm2⟩
          · rw [Bool.not_eq_true] at hcond
            simp [expectedEdges, hrby, hv, hcond] at hok
    | none =>
      have hcar : carriersOf (r :: rest) = [] := by
        simp [carriersOf, List.takeWhile_cons, hrby]
      have hdash : dashesOf (r :: rest) = r :: rest := by
        simp [dashesOf, List.dropWhile_cons, hrby]
      cases prev with
      | some pv =>
        cases hma : mra rows runs pv.2 r with
        | error e => simp [expectedEdges, hrby, hma] at hok
        | ok a =>
          cases hee : expectedEdges rows runs rest (some pv) true with
          | error e => simp [expectedEdges, hrby, hma, hee] at hok
          | ok es2 =>
            have hes : (r.hash, a.hash) :: es2 = es := by
              simpa [expectedEdges, hrby, hma, hee] using hok
            subst hes
            have hall : rest.all (fun r => r.rby.isNone) = true :=
              expectedEdges_ok_dash rows runs rest (some pv) es2 hee
            obtain ⟨ih1, ih2, ih3⟩ := ih (some pv) true es2 hee
            refine ⟨?_, ?_, ?_⟩
            · intro pq hpq
              rw [hcar] at hpq
              simp [pairwiseList] at hpq
            · intro pv2 hpv2 hsd q hq
              rw [hcar] at hq
              simp at hq
            · intro d hd cn hcn
              have hcn2 : pv.2 = cn := by
                rw [lastCarrier, hcar] at hcn
                simpa using hcn
              subst hcn2
              rw [hdash] at hd
              rcases List.mem_cons.mp hd with rfl | hd2
              · exact ⟨a, hma, List.mem_cons_self _ _⟩
              · have hlast2 : lastCarrier (some pv) rest = some pv.2 := by
                  rw [lastCarrier, carriersOf_eq_nil_of_all_dash hall]
                  rfl
                obtain ⟨a2, ha2, hm2⟩ := ih3 d
                  (by rw [dashesOf_eq_self_of_all_dash hall]; exact hd2)
                  pv.2 (by simp [hlast2])
                exact ⟨a2, ha2, List.mem_cons_of_mem _ hm2⟩
      | none =>
        have hok2 : expectedEdges rows runs rest none true = .ok es := by
          simpa [expectedEdges, hrby] using hok
        refine ⟨?_, ?_, ?_⟩
        · intro pq hpq
          rw [hcar] at hpq
          simp [pairwiseList] at hpq
        · intro pv2 hpv2
          cases hpv2
        · intro d hd cn hcn
          rw [lastCarrier, hcar] at hcn
          simp at hcn

/-- C6, amended.  For every adjacent pair of carriers in a year group
the edge builder adds an edge aimed at the later one — even when both
already carry a global rank — and the recorded antecedent is not
`prev` itself but its `max_ranked_after` adjustment (which is `prev`
itself exactly when `prev` is unranked or the current row is ranked);
every dash row additionally gets an edge from the adjustment of the
group's last carrier.  Hypotheses: unique ids, one block per year, no
pre-existing edges, and a successful run. -/
theorem c6_group_edges (rows : List Row)
    (hnd : (rows.map (·.hash)).Nodup)
    (hyears : ((chunkByYear rows).map Prod.fst).Nodup)
    (hempty : ∀ r ∈ rows, r.after = [])
    (s1 : List Row) (h1 : computeEdgesByYear rows = .ok s1) :
    ∀ c ∈ chunkByYear rows,
      (∀ pq ∈ pairwiseList (carriersOf c.2),
        ∃ a, mra rows (consecutiveRuns (sortRanks rows)) pq.1 pq.2 = .ok a
          ∧ afterOf s1 pq.2.hash = [a.hash])
      ∧ (∀ d ∈ dashesOf c.2, ∀ cn ∈ lastCarrier none c.2,
          ∃ a, mra rows (consecutiveRuns (sortRanks rows)) cn d = .ok a
            ∧ afterOf s1 d.hash = [a.hash]) := by
  obtain ⟨esAll, hA, hndT, hs1, hchar⟩ :=
    stage1_afterOf rows hnd hyears hempty s1 h1
  have hmapM : ∃ ess, (chunkByYear rows).mapM
      (fun c => expectedEdges rows (consecutiveRuns (sortRanks rows)) c.2
        none false) = .ok ess ∧ esAll = ess.flatten := by
    unfold allYearEdges at hA
    rw [groupedDict_of_nodup _ hyears] at hA
    cases hM : (chunkByYear rows).mapM
        (fun c => expectedEdges rows (consecutiveRuns (sortRanks rows)) c.2
          none false) with
    | error e => rw [hM] at hA; simp at hA
    | ok ess =>
      rw [hM] at hA
      have hA2 : Except.ok (ε := SortErr) ess.flatten = .ok esAll := by
        simpa using hA
      injection hA2 with hA3
      exact ⟨ess, rfl, hA3.symm⟩
  obtain ⟨ess, hM, hflat⟩ := hmapM
  have hfa := mapM_expected_ok rows (consecutiveRuns (sortRanks rows))
    (chunkByYear rows) ess hM
  intro c hc
  obtain ⟨esg, hesg_mem, hesg⟩ := forallTwo_mem_left hfa c hc
  obtain ⟨hp1, hp2, hp3⟩ :=
    expectedEdges_pairs rows (consecutiveRuns (sortRanks rows)) c.2 none
      false esg hesg
  have hmem_lift : ∀ q a2 : Nat, (q, a2) ∈ esg → (q, a2) ∈ esAll := by
    intro q a2 hm
    rw [hflat]
    exact List.mem_flatten.mpr ⟨esg, hesg_mem, hm⟩
  constructor
  · intro pq hpq
    obtain ⟨a, ha, hm⟩ := hp1 pq hpq
    refine ⟨a, ha, ?_⟩
    rw [hchar pq.2.hash,
      filter_eq_of_mem_nodup (hmem_lift _ _ hm) hndT]
    rfl
  · intro d hd cn hcn
    obtain ⟨a, ha, hm⟩ := hp3 d hd cn hcn
    refine ⟨a, ha, ?_⟩
    rw [hchar d.hash, filter_eq_of_mem_nodup (hmem_lift _ _ hm) hndT]
    rfl

/-- C6, amended, witness: in the Scenario A group the carrier pair
(`#2`, `#3`) yields the edge `#3`-after-`#2` (here the adjustment is
`#2` itself since `#2` is unranked). -/
theorem c6_group_edges_witness :
    ∃ a, mra scRows (consecutiveRuns (sortRanks scRows))
        { hash := 2, year := 2000, rby := some 1 }
        { hash := 3, year := 2000, rby := some 2 } = .ok a
      ∧ afterOf scYearOut 3 = [a.hash] := by
  have h := c6_group_edges scRows (by decide) (by decide) (by decide)
    scYearOut (by decide) ((2000 : Int), scRows) (by decide)
  exact h.1 ({ hash := 2, year := 2000, rby := some 1 },
    { hash := 3, year := 2000, rby := some 2 }) (by decide)

/-! ## Claim C9 -/

theorem computeEdgesByRank_eq_foldSet (st : List Row) :
    computeEdgesByRank st = foldSet st (rankEdges st) := by
  unfold computeEdgesByRank rankEdges foldSet
  rw [List.foldl_map]

theorem pairwiseList_map_snd {α : Type} :
    ∀ l : List α, (pairwiseList l).map (·.2) = l.tail := by
  intro l
  induction l with
  | nil => rfl
  | cons a t ih =>
    cases t with
    | nil => rfl
    | cons b t2 =>
      have h2 : pairwiseList (a :: b :: t2)
          = (a, b) :: pairwiseList (b :: t2) := rfl
      rw [h2, List.map_cons, ih]
      rfl

theorem pairwiseList_mem {α : Type} :
    ∀ (l : List α) (p : α × α), p ∈ pairwiseList l → p.1 ∈ l ∧ p.2 ∈ l := by
  intro l
  induction l with
  | nil => intro p hp; simp [pairwiseList] at hp
  | cons a t ih =>
    intro p hp
    cases t with
    | nil => simp [pairwiseList] at hp
    | cons b t2 =>
      have h2 : pairwiseList (a :: b :: t2)
          = (a, b) :: pairwiseList (b :: t2) := rfl
      rw [h2] at hp
      rcases List.mem_cons.mp hp with rfl | hp2
      · exact ⟨List.mem_cons_self _ _,
          List.mem_cons_of_mem _ (List.mem_cons_self _ _)⟩
      · obtain ⟨h1, hsnd⟩ := ih p hp2
        exact ⟨List.mem_cons_of_mem _ h1, List.mem_cons_of_mem _ hsnd⟩

theorem rankEdges_targets_nodup (st : List Row)
    (hnd : (st.map (·.hash)).Nodup) :
    ((rankEdges st).map (·.1)).Nodup := by
  have hperm : (List.insertionSort rankLe (st.filter (hasRank ·))).Perm
      (st.filter (hasRank ·)) := List.perm_insertionSort _ _
  have hsubf : ((st.filter (hasRank ·)).map (·.hash)).Nodup :=
    List.Nodup.sublist (List.Sublist.map _ (List.filter_sublist st)) hnd
  have hsrt : ((List.insertionSort rankLe (st.filter (hasRank ·))).map
      (·.hash)).Nodup := ((hperm.map (·.hash)).nodup_iff).mpr hsubf
  have heq : (rankEdges st).map (·.1)
      = ((List.insertionSort rankLe (st.filter (hasRank ·))).map
          (·.hash)).tail := by
    rw [rankEdges, List.map_map]
    rw [show ((·.1) ∘ fun (p : Row × Row) => (p.2.hash, p.1.hash))
        = ((·.hash) ∘ (·.2)) from rfl]
    rw [← List.map_map, pairwiseList_map_snd, List.map_tail]
  rw [heq]
  exact List.Nodup.sublist (List.tail_sublist _) hsrt

theorem rankEdges_ante_ranked (st : List Row)
    (hnd : (st.map (·.hash)).Nodup) :
    ∀ p ∈ rankEdges st,
      ∃ ra, lookupRow st p.2 = some ra ∧ hasRank ra = true := by
  intro p hp
  rw [rankEdges] at hp
  obtain ⟨q, hq, hqe⟩ := List.mem_map.mp hp
  have hmem := (pairwiseList_mem _ q hq).1
  have hmem2 : q.1 ∈ st.filter (hasRank ·) :=
    (List.perm_insertionSort _ _).mem_iff.mp hmem
  have hq1r : hasRank q.1 = true := List.of_mem_filter hmem2
  have hl : lookupRow st q.1.hash = some q.1 :=
    lookupRow_self hnd (List.mem_of_mem_filter hmem2)
  refine ⟨q.1, ?_, hq1r⟩
  rw [← hqe]
  exact hl

theorem nodup_of_length_le_one {α : Type} {l : List α} (h : l.length ≤ 1) :
    l.Nodup := by
  cases l with
  | nil => exact List.nodup_nil
  | cons x xs =>
    cases xs with
    | nil => simp
    | cons y ys => simp at h

theorem nodup_append_singleton {α : Type} {l : List α} {a : α}
    (hl : l.Nodup) (ha : a ∉ l) : (l ++ [a]).Nodup := by
  rw [List.nodup_append]
  refine ⟨hl, List.nodup_singleton a, ?_⟩
  intro x hx hx2
  rw [List.mem_singleton] at hx2
  subst hx2
  exact ha hx

theorem count_le_length (st : List Row) (l : List Nat) :
    unrankedCount st l ≤ l.length ∧ rankedCount st l ≤ l.length :=
  ⟨le_trans (List.length_filter_le _ _) (List.length_filterMap_le _ _),
   le_trans (List.length_filter_le _ _) (List.length_filterMap_le _ _)⟩

theorem counts_append (st : List Row) (l1 l2 : List Nat) :
    unrankedCount st (l1 ++ l2) = unrankedCount st l1 + unrankedCount st l2
    ∧ rankedCount st (l1 ++ l2)
        = rankedCount st l1 + rankedCount st l2 := by
  constructor <;>
    simp [unrankedCount, rankedCount, List.filterMap_append, List.filter_append]

theorem filter_length_congr {α : Type} (p : α → Bool) :
    ∀ {l1 l2 : List α}, List.Forall₂ (fun a b => p a = p b) l1 l2 →
      (l1.filter p).length = (l2.filter p).length := by
  intro l1 l2 hf
  induction hf with
  | nil => rfl
  | cons hab htail ih =>
    rw [List.filter_cons, List.filter_cons, hab]
    split <;> simp [ih]

theorem filterMap_lookup_forallTwo (s s2 : List Row)
    (hrk : ∀ h, (lookupRow s2 h).map (·.rank)
      = (lookupRow s h).map (·.rank)) :
    ∀ l : List Nat, List.Forall₂ (fun a b => hasRank a = hasRank b)
      (l.filterMap (lookupRow s2)) (l.filterMap (lookupRow s)) := by
  intro l
  induction l with
  | nil => exact List.Forall₂.nil
  | cons x xs ih =>
    rw [List.filterMap_cons, List.filterMap_cons]
    have hx := hrk x
    cases hl : lookupRow s x with
    | none =>
      have hl2 : lookupRow s2 x = none := by
        rw [hl] at hx
        cases hl2 : lookupRow s2 x with
        | none => rfl
        | some r => rw [hl2] at hx; simp at hx
      rw [hl2]
      exact ih
    | some r =>
      obtain ⟨r2, hl2, hrank⟩ : ∃ r2, lookupRow s2 x = some r2
          ∧ r2.rank = r.rank := by
        rw [hl] at hx
        cases hl2 : lookupRow s2 x with
        | none => rw [hl2] at hx; simp at hx
        | some r2 =>
          rw [hl2] at hx
          refine ⟨r2, rfl, ?_⟩
          simpa using hx
      rw [hl2]
      exact List.Forall₂.cons (by rw [hasRank, hasRank, hrank]) ih

/-- The two predecessor counts only read ids and ranks, so they agree
between any two tables with the same rank per id. -/
theorem counts_congr (s s2 : List Row) (l : List Nat)
    (hrk : ∀ h, (lookupRow s2 h).map (·.rank)
      = (lookupRow s h).map (·.rank)) :
    unrankedCount s2 l = unrankedCount s l
    ∧ rankedCount s2 l = rankedCount s l := by
  have hft := filterMap_lookup_forallTwo s s2 hrk l
  constructor
  · exact filter_length_congr _
      (hft.imp (fun a b hab => by simp only [hab]))
  · exact filter_length_congr _
      (hft.imp (fun a b hab => by simp only [hab]))

theorem reduceRow_rank (st : List Row) (r : Row) :
    (reduceRow st r).rank = r.rank := by
  rw [reduceRow]
  split <;> rfl

theorem reduceRow_of_short (st : List Row) (r : Row)
    (hlen : ¬ ((r.after.filterMap (lookupRow st)).filter
      (hasRank ·)).length > 1) :
    reduceRow st r = r := by
  rw [reduceRow]
  rw [if_neg hlen]

theorem removeExtraAfters_lookup_rank (s2 : List Row) (h : Nat) :
    (lookupRow (removeExtraAfters s2) h).map (·.rank)
      = (lookupRow s2 h).map (·.rank) := by
  rw [removeExtraAfters, lookupRow_map s2 _ (fun r => reduceRow_hash s2 r) h]
  cases lookupRow s2 h with
  | none => rfl
  | some r => simp [reduceRow_rank]

/-- C9.  Starting from a table with unique ids, one block per year and
no pre-existing edges, after both edge builders and the reducer every
row has at most one unranked direct predecessor and at most one ranked
direct predecessor, so the `assert len(prevs) == 1` of the chain walk
in `get_chains` can never fail on a pipeline-produced table. -/
theorem c9_single_predecessor (rows : List Row)
    (hnd : (rows.map (·.hash)).Nodup)
    (hyears : ((chunkByYear rows).map Prod.fst).Nodup)
    (hempty : ∀ r ∈ rows, r.after = [])
    (s1 : List Row) (h1 : computeEdgesByYear rows = .ok s1) :
    ∀ r ∈ removeExtraAfters (computeEdgesByRank s1),
      unrankedCount (removeExtraAfters (computeEdgesByRank s1)) r.after ≤ 1
      ∧ rankedCount (removeExtraAfters (computeEdgesByRank s1)) r.after
          ≤ 1 := by
  obtain ⟨esAll, hA, hndT, hs1, hchar⟩ :=
    stage1_afterOf rows hnd hyears hempty s1 h1
  have hs1hash : s1.map (·.hash) = rows.map (·.hash) := by
    rw [hs1]
    exact foldSet_map_hash esAll rows
  have hs1nd : (s1.map (·.hash)).Nodup := by
    rw [hs1hash]
    exact hnd
  have hlen1 : ∀ h, (afterOf s1 h).length ≤ 1 := by
    intro h
    rw [hchar h, List.length_map]
    exact filter_length_le_one_of_nodup hndT
  have hs2 : computeEdgesByRank s1 = foldSet s1 (rankEdges s1) :=
    computeEdgesByRank_eq_foldSet s1
  have hs2rank : ∀ h, (lookupRow (computeEdgesByRank s1) h).map (·.rank)
      = (lookupRow s1 h).map (·.rank) := by
    intro h
    rw [hs2]
    exact foldSet_lookup_rank _ _ _
  have hs2hash : (computeEdgesByRank s1).map (·.hash) = s1.map (·.hash) := by
    rw [hs2]
    exact foldSet_map_hash _ _
  have hs2nd : ((computeEdgesByRank s1).map (·.hash)).Nodup := by
    rw [hs2hash]
    exact hs1nd
  have hafter2 : ∀ h, afterOf (computeEdgesByRank s1) h = afterOf s1 h
      ∨ ∃ a, (h, a) ∈ rankEdges s1 ∧ a ∉ afterOf s1 h
          ∧ afterOf (computeEdgesByRank s1) h = afterOf s1 h ++ [a] := by
    intro h
    rw [hs2]
    exact foldSet_afterOf_le_one (rankEdges s1) s1 h
      (filter_length_le_one_of_nodup (rankEdges_targets_nodup s1 hs1nd))
  have hafter2nd : ∀ h, (afterOf (computeEdgesByRank s1) h).Nodup := by
    intro h
    rcases hafter2 h with he | ⟨a, _, hnm, he⟩
    · rw [he]
      exact nodup_of_length_le_one (hlen1 h)
    · rw [he]
      exact nodup_append_singleton (nodup_of_length_le_one (hlen1 h)) hnm
  have hcnt2 : ∀ h,
      unrankedCount (computeEdgesByRank s1)
        (afterOf (computeEdgesByRank s1) h) ≤ 1 := by
    intro h
    rcases hafter2 h with he | ⟨a, haE, _, he⟩
    · rw [he]
      exact le_trans (count_le_length _ _).1 (hlen1 h)
    · rw [he, (counts_append _ _ _).1]
      have h1le : unrankedCount (computeEdgesByRank s1) (afterOf s1 h) ≤ 1 :=
        le_trans (count_le_length _ _).1 (hlen1 h)
      have h2z : unrankedCount (computeEdgesByRank s1) [a] = 0 := by
        obtain ⟨ra, hra, hrr⟩ := rankEdges_ante_ranked s1 hs1nd (h, a) haE
        obtain ⟨ra2, hra2, hrk2⟩ : ∃ ra2,
            lookupRow (computeEdgesByRank s1) a = some ra2
            ∧ ra2.rank = ra.rank := by
          have hx := hs2rank a
          rw [hra] at hx
          cases hl2 : lookupRow (computeEdgesByRank s1) a with
          | none => rw [hl2] at hx; simp at hx
          | some r2 =>
            rw [hl2] at hx
            exact ⟨r2, rfl, by simpa using hx⟩
        have hra2r : hasRank ra2 = true := by
          rw [hasRank, hrk2]
          exact hrr
        simp [unrankedCount, List.filterMap_cons, hra2, hra2r]
      omega
  intro r hr
  rw [removeExtraAfters] at hr
  obtain ⟨r2, hr2mem, hr2eq⟩ := List.mem_map.mp hr
  subst hr2eq
  have hl2 : lookupRow (computeEdgesByRank s1) r2.hash = some r2 :=
    lookupRow_self hs2nd hr2mem
  have haft : afterOf (computeEdgesByRank s1) r2.hash = r2.after := by
    rw [afterOf, hl2]
    rfl
  have hcc : ∀ l, unrankedCount (removeExtraAfters (computeEdgesByRank s1)) l
        = unrankedCount (computeEdgesByRank s1) l
      ∧ rankedCount (removeExtraAfters (computeEdgesByRank s1)) l
        = rankedCount (computeEdgesByRank s1) l := fun l =>
    counts_congr (computeEdgesByRank s1) _ l
      (removeExtraAfters_lookup_rank (computeEdgesByRank s1))
  have huc2 : unrankedCount (computeEdgesByRank s1) r2.after ≤ 1 := by
    rw [← haft]
    exact hcnt2 r2.hash
  by_cases hgt : ((r2.after.filterMap (lookupRow (computeEdgesByRank s1))).filter
      (hasRank ·)).length > 1
  · rw [reduceRow_of_long _ _ hgt]
    have hndp : ((r2.after.filterMap
        (lookupRow (computeEdgesByRank s1))).map (·.hash)).Nodup :=
      predRows_hash_nodup _ r2.after (by rw [← haft]; exact hafter2nd r2.hash)
    obtain ⟨best, hbmem, hbmax, hkr, hku, hkdrop⟩ :=
      kept_filter_spec (r2.after.filterMap (lookupRow (computeEdgesByRank s1)))
        hndp hgt
    have hkmem : ∀ k ∈ keptRows (r2.after.filterMap
        (lookupRow (computeEdgesByRank s1))),
        lookupRow (computeEdgesByRank s1) k.hash = some k := by
      intro k hk
      exact mem_filterMap_lookup (List.mem_of_mem_filter hk)
    have hkk : ((keptRows (r2.after.filterMap
        (lookupRow (computeEdgesByRank s1)))).map (·.hash)).filterMap
          (lookupRow (computeEdgesByRank s1))
        = keptRows (r2.after.filterMap (lookupRow (computeEdgesByRank s1))) :=
      filterMap_lookup_of_mem _ _ hkmem
    constructor
    · rw [(hcc _).1]
      show ((((keptRows _).map (·.hash)).filterMap
        (lookupRow (computeEdgesByRank s1))).filter
          (fun a => ¬ hasRank a)).length ≤ 1
      rw [hkk, hku]
      exact huc2
    · rw [(hcc _).2]
      show ((((keptRows _).map (·.hash)).filterMap
        (lookupRow (computeEdgesByRank s1))).filter (hasRank ·)).length ≤ 1
      rw [hkk, hkr]
      simp
  · rw [reduceRow_of_short _ _ hgt]
    constructor
    · rw [(hcc _).1]
      exact huc2
    · rw [(hcc _).2]
      show ((r2.after.filterMap (lookupRow (computeEdgesByRank s1))).filter
        (hasRank ·)).length ≤ 1
      omega

/-- C9, witness: on the Scenario A table after both edge builders and
the reducer, row `#4` (predecessors `#3` unranked and `#1` ranked) has
one unranked and one ranked direct predecessor. -/
theorem c9_single_predecessor_witness :
    unrankedCount (removeExtraAfters (computeEdgesByRank scYearOut))
        [3, 1] ≤ 1
    ∧ rankedCount (removeExtraAfters (computeEdgesByRank scYearOut))
        [3, 1] ≤ 1 :=
  c9_single_predecessor scRows (by decide) (by decide) (by decide) scYearOut
    (by decide)
    { hash := 4, year := 2000, rank := some 1004, after := [3, 1] }
    (by decide)

/-! ## Claim C10 -/

/-- C10.  The layering stage writes the layer computed for graph
vertex `h` onto the row at list position `h - 1`, whatever that row's
own id is — so a row receives its own `Res` exactly under the implicit
precondition that its id equals its 1-based list position — and a
vertex beyond the table length makes the stage fail.  (Ids are numeric
by construction in this model, as `unique_ids` produces them; the
non-numeric half of the claim is a Python typing concern.) -/
theorem c10_positional_write (s : List Row) (h : Nat) (i : Int)
    (hpos : 1 ≤ h) :
    (h ≤ s.length →
      ∃ r, s.get? (h - 1) = some r
        ∧ setResAt s h i = .ok (s.set (h - 1) { r with res := some i }))
    ∧ (s.length < h → setResAt s h i = .error (.indexOutOfRange h)) := by
  have hj : (if (0 : Int) ≤ (h : Int) - 1 then (h : Int) - 1
      else (s.length : Int) + ((h : Int) - 1)) = (h : Int) - 1 := by
    rw [if_pos (by omega)]
  constructor
  · intro hle
    have hlt : h - 1 < s.length := by omega
    obtain ⟨r, hr⟩ : ∃ r, s.get? (h - 1) = some r := by
      rw [List.get?_eq_getElem?]
      exact ⟨s[h - 1], List.getElem?_eq_getElem hlt⟩
    refine ⟨r, hr, ?_⟩
    have hcond : (0 : Int) ≤ ((h : Int) - 1)
        ∧ ((h : Int) - 1) < (s.length : Int) := by
      constructor <;> omega
    have htn : ((h : Int) - 1).toNat = h - 1 := by omega
    simp only [setResAt, hj, if_pos hcond, htn, hr]
  · intro hgt
    have hcond : ¬ ((0 : Int) ≤ ((h : Int) - 1)
        ∧ ((h : Int) - 1) < (s.length : Int)) := by
      intro hc
      omega
    simp only [setResAt, hj, if_neg hcond]

/-- C10, witness: vertex 2 of `evidenceRows` gets its layer written
onto the row at position 1 — which is row `#2` itself, since ids equal
positions there. -/
theorem c10_positional_write_witness :
    setResAt evidenceRows 2 5
      = .ok (evidenceRows.set 1
          { hash := 2, year := 1980, after := [1], res := some 5 }) := by
  obtain ⟨r, hr, heq⟩ :=
    (c10_positional_write evidenceRows 2 5 (by decide)).1 (by decide)
  have hre : some r = some ({ hash := 2, year := 1980, after := [1] } : Row) := by
    rw [← hr]
    rfl
  injection hre with hre2
  rw [heq, hre2]

/-! ## Topological layering, solved (claim C8) -/

theorem setResAt_ok_get? (s : List Row) (h : Nat) (i : Int) (s' : List Row)
    (hpos : 1 ≤ h) (hok : setResAt s h i = .ok s') :
    s'.length = s.length
    ∧ ∀ k, s'.get? k = (s.get? k).map
        (fun r => if k = h - 1 then { r with res := some i } else r) := by
  by_cases hle : h ≤ s.length
  · obtain ⟨r, hr, heq⟩ := (c10_positional_write s h i hpos).1 hle
    rw [heq] at hok
    injection hok with he
    subst he
    refine ⟨List.length_set s _ _, ?_⟩
    intro k
    rw [List.get?_eq_getElem?, List.get?_eq_getElem?, List.getElem?_set]
    by_cases hk : k = h - 1
    · subst hk
      rw [if_pos rfl, if_pos (by omega)]
      rw [List.get?_eq_getElem?] at hr
      rw [hr]
      simp
    · rw [if_neg (fun he2 => hk he2.symm)]
      cases s[k]? with
      | none => rfl
      | some r2 => simp [hk]
  · have := (c10_positional_write s h i hpos).2 (by omega)
    rw [this] at hok
    cases hok

theorem layerFold_res (i : Int) :
    ∀ (layer : List Nat) (s s' : List Row),
      (∀ h ∈ layer, 1 ≤ h) →
      layer.foldlM (fun s h => setResAt s h i) s = .ok s' →
      s'.length = s.length
      ∧ ∀ k, s'.get? k = (s.get? k).map
          (fun r => if (k + 1) ∈ layer then { r with res := some i }
            else r) := by
  intro layer
  induction layer with
  | nil =>
    intro s s' _ hok
    rw [List.foldlM_nil] at hok
    injection hok with he
    subst he
    refine ⟨rfl, fun k => ?_⟩
    cases s.get? k with
    | none => rfl
    | some r => simp
  | cons h t ih =>
    intro s s' hval hok
    rw [List.foldlM_cons] at hok
    cases hst : setResAt s h i with
    | error e => rw [hst] at hok; simp at hok
    | ok s1 =>
      rw [hst] at hok
      simp only [exceptBind_ok] at hok
      have hh1 := hval h (List.mem_cons_self h t)
      obtain ⟨hlen1, hset⟩ := setResAt_ok_get? s h i s1 hh1 hst
      obtain ⟨hlen2, hihk⟩ :=
        ih s1 s' (fun x hx => hval x (List.mem_cons_of_mem h hx)) hok
      refine ⟨hlen2.trans hlen1, fun k => ?_⟩
      rw [hihk k, hset k]
      cases hg : s.get? k with
      | none => rfl
      | some r =>
        simp only [Option.map_some']
        by_cases hk : k + 1 = h
        · have hk2 : k = h - 1 := by omega
          have hmem : (k + 1) ∈ h :: t := by
            rw [hk]
            exact List.mem_cons_self _ _
          rw [if_pos hk2, if_pos hmem]
          split <;> rfl
        · have hk2 : ¬ (k = h - 1) := by omega
          rw [if_neg hk2]
          by_cases hmem : k + 1 ∈ t
          · rw [if_pos hmem, if_pos (List.mem_cons_of_mem _ hmem)]
          · rw [if_neg hmem, if_neg (fun hc => by
              rcases List.mem_cons.mp hc with he2 | ht2
              · exact hk he2
              · exact hmem ht2)]

theorem layersFold_res :
    ∀ (layers : List (List Nat)) (s : List Row) (i : Int)
      (out : List Row × Int),
      (∀ layer ∈ layers, ∀ h ∈ layer, 1 ≤ h) →
      (layers.foldlM (fun acc layer => do
          let s2 ← layer.foldlM (fun s h => setResAt s h acc.2) acc.1
          pure (s2, acc.2 + 1)) (s, i)) = .ok out →
      out.1.length = s.length
      ∧ ∀ k r, s.get? k = some r →
        ∃ r', out.1.get? k = some r'
          ∧ r'.hash = r.hash ∧ r'.rank = r.rank ∧ r'.after = r.after
          ∧ (if (k + 1) ∈ layers.flatten then ∃ v, r'.res = some v
             else r'.res = r.res) := by
  intro layers
  induction layers with
  | nil =>
    intro s i out _ hok
    rw [List.foldlM_nil] at hok
    injection hok with he
    subst he
    refine ⟨rfl, fun k r hr => ⟨r, hr, rfl, rfl, rfl, ?_⟩⟩
    simp
  | cons layer rest ih =>
    intro s i out hval hok
    rw [List.foldlM_cons] at hok
    cases hin : layer.foldlM (fun s h => setResAt s h i) s with
    | error e => rw [hin] at hok; simp at hok
    | ok s1 =>
      rw [hin] at hok
      simp only [exceptBind_ok, exceptBind_ok] at hok
      obtain ⟨hlen1, hstep⟩ :=
        layerFold_res i layer s s1
          (hval layer (List.mem_cons_self layer rest)) hin
      obtain ⟨hlen2, hrest⟩ :=
        ih s1 (i + 1) out
          (fun l hl => hval l (List.mem_cons_of_mem layer hl)) hok
      refine ⟨hlen2.trans hlen1, fun k r hr => ?_⟩
      have hs1k : s1.get? k = some (if (k + 1) ∈ layer
          then { r with res := some i } else r) := by
        rw [hstep k, hr]
        rfl
      by_cases hmem : (k + 1) ∈ layer
      · rw [if_pos hmem] at hs1k
        obtain ⟨r', hr', hh, hrk, ha, hres⟩ :=
          hrest k { r with res := some i } hs1k
        refine ⟨r', hr', hh, hrk, ha, ?_⟩
        rw [if_pos (by
          rw [List.flatten_cons]
          exact List.mem_append_left _ hmem)]
        by_cases hm2 : (k + 1) ∈ rest.flatten
        · rw [if_pos hm2] at hres
          exact hres
        · rw [if_neg hm2] at hres
          exact ⟨i, hres⟩
      · rw [if_neg hmem] at hs1k
        obtain ⟨r', hr', hh, hrk, ha, hres⟩ := hrest k r hs1k
        refine ⟨r', hr', hh, hrk, ha, ?_⟩
        by_cases hm2 : (k + 1) ∈ rest.flatten
        · rw [if_pos hm2] at hres
          rw [if_pos (by
            rw [List.flatten_cons]
            exact List.mem_append_right _ hm2)]
          exact hres
        · rw [if_neg hm2] at hres
          rw [if_neg (by
            rw [List.flatten_cons]
            intro hc
            rcases List.mem_append.mp hc with h1 | h2
            · exact hmem h1
            · exact hm2 h2)]
          exact hres

theorem topoLoop_acc_mem :
    ∀ (fuel : Nat) (data : List (Nat × List Nat)) (acc out : List (List Nat)),
      topoLoop fuel data acc = .ok out → ∀ l ∈ acc, l ∈ out := by
  intro fuel
  induction fuel with
  | zero =>
    intro data acc out hok l hl
    by_cases hd : data.isEmpty
    · have hout : acc.reverse = out := by simpa [topoLoop, hd] using hok
      rw [← hout]
      exact List.mem_reverse.mpr hl
    · simp [topoLoop, hd] at hok
  | succ fuel ih =>
    intro data acc out hok l hl
    by_cases hd : data.isEmpty
    · have hout : acc.reverse = out := by simpa [topoLoop, hd] using hok
      rw [← hout]
      exact List.mem_reverse.mpr hl
    · by_cases ho : (readyKeys data).isEmpty
      · simp [topoLoop, hd, ho] at hok
      · have hok2 : topoLoop fuel (topoStep data (readyKeys data))
            (readyKeys data :: acc) = .ok out := by
          simpa [topoLoop, hd, ho] using hok
        exact ih _ _ out hok2 l (List.mem_cons_of_mem _ hl)

/-- Modelled from the spec: every key of the remaining data ends up in
some emitted generation when the sort succeeds. -/
theorem topoLoop_covers :
    ∀ (fuel : Nat) (data : List (Nat × List Nat)) (acc out : List (List Nat)),
      topoLoop fuel data acc = .ok out →
      ∀ k ∈ data.map (·.1), ∃ l ∈ out, k ∈ l := by
  intro fuel
  induction fuel with
  | zero =>
    intro data acc out hok k hk
    by_cases hd : data.isEmpty
    · rw [List.isEmpty_iff] at hd
      subst hd
      simp at hk
    · simp [topoLoop, hd] at hok
  | succ fuel ih =>
    intro data acc out hok k hk
    by_cases hd : data.isEmpty
    · rw [List.isEmpty_iff] at hd
      subst hd
      simp at hk
    · by_cases ho : (readyKeys data).isEmpty
      · simp [topoLoop, hd, ho] at hok
      · have hok2 : topoLoop fuel (topoStep data (readyKeys data))
            (readyKeys data :: acc) = .ok out := by
          simpa [topoLoop, hd, ho] using hok
        by_cases hkord : k ∈ readyKeys data
        · exact ⟨readyKeys data,
            topoLoop_acc_mem fuel _ _ out hok2 _ (List.mem_cons_self _ _),
            hkord⟩
        · have hk2 : k ∈ (topoStep data (readyKeys data)).map (·.1) := by
            obtain ⟨kv, hkv, hkve⟩ := List.mem_map.mp hk
            rw [topoStep, List.map_map]
            refine List.mem_map.mpr ⟨kv, List.mem_filter.mpr ⟨hkv, ?_⟩, hkve⟩
            rw [hkve]
            simpa using hkord
          exact ih _ _ out hok2 k hk2

theorem readyKeys_subset (data : List (Nat × List Nat)) :
    ∀ k ∈ readyKeys data, k ∈ data.map (·.1) := by
  intro k hk
  obtain ⟨kv, hkv, he⟩ := List.mem_map.mp hk
  exact List.mem_map.mpr ⟨kv, List.mem_of_mem_filter hkv, he⟩

theorem topoStep_keys_subset (data : List (Nat × List Nat))
    (ordered : List Nat) :
    ∀ k ∈ (topoStep data ordered).map (·.1), k ∈ data.map (·.1) := by
  intro k hk
  rw [topoStep, List.map_map] at hk
  obtain ⟨kv, hkv, he⟩ := List.mem_map.mp hk
  exact List.mem_map.mpr ⟨kv, List.mem_of_mem_filter hkv, he⟩

/-- Modelled from the spec: every emitted generation consists of keys
of the data the loop was started on. -/
theorem topoLoop_layers_sub :
    ∀ (fuel : Nat) (data : List (Nat × List Nat)) (acc out : List (List Nat)),
      topoLoop fuel data acc = .ok out →
      ∀ l ∈ out, l ∈ acc ∨ (∀ k ∈ l, k ∈ data.map (·.1)) := by
  intro fuel
  induction fuel with
  | zero =>
    intro data acc out hok l hl
    by_cases hd : data.isEmpty
    · have hout : acc.reverse = out := by simpa [topoLoop, hd] using hok
      rw [← hout] at hl
      exact Or.inl (List.mem_reverse.mp hl)
    · simp [topoLoop, hd] at hok
  | succ fuel ih =>
    intro data acc out hok l hl
    by_cases hd : data.isEmpty
    · have hout : acc.reverse = out := by simpa [topoLoop, hd] using hok
      rw [← hout] at hl
      exact Or.inl (List.mem_reverse.mp hl)
    · by_cases ho : (readyKeys data).isEmpty
      · simp [topoLoop, hd, ho] at hok
      · have hok2 : topoLoop fuel (topoStep data (readyKeys data))
            (readyKeys data :: acc) = .ok out := by
          simpa [topoLoop, hd, ho] using hok
        rcases ih _ _ out hok2 l hl with hacc | hsub
        · rcases List.mem_cons.mp hacc with rfl | hacc2
          · exact Or.inr (readyKeys_subset data)
          · exact Or.inl hacc2
        · exact Or.inr (fun k hk =>
            topoStep_keys_subset data _ k (hsub k hk))

theorem dedupNat_mem : ∀ (l : List Nat) (x : Nat), x ∈ dedupNat l ↔ x ∈ l := by
  intro l
  induction l with
  | nil => intro x; exact Iff.rfl
  | cons a t ih =>
    intro x
    rw [dedupNat]
    constructor
    · intro hx
      rcases List.mem_cons.mp hx with rfl | hx2
      · exact List.mem_cons_self _ _
      · exact List.mem_cons_of_mem _ ((ih x).mp (List.mem_of_mem_filter hx2))
    · intro hx
      rcases List.mem_cons.mp hx with rfl | hx2
      · exact List.mem_cons_self _ _
      · by_cases hxa : x = a
        · subst hxa
          exact List.mem_cons_self _ _
        · refine List.mem_cons_of_mem _
            (List.mem_filter.mpr ⟨(ih x).mpr hx2, ?_⟩)
          simp [hxa]

/-- Modelled from the spec: the vertices of the prepared data are the
keys together with every id referenced by a key other than itself. -/
theorem topoPrep_keys (data : List (Nat × List Nat)) (k : Nat) :
    k ∈ (topoPrep data).map (·.1)
      ↔ (k ∈ data.map (·.1)
          ∨ ∃ kv ∈ data, k ∈ kv.2 ∧ k ≠ kv.1) := by
  rw [topoPrep]
  rw [List.map_append, List.mem_append, List.map_map, List.map_map]
  constructor
  · rintro (hk | hk)
    · left
      obtain ⟨kv, hkv, he⟩ := List.mem_map.mp hk
      exact List.mem_map.mpr ⟨kv, hkv, he⟩
    · right
      obtain ⟨n, hn, he⟩ := List.mem_map.mp hk
      have hn2 := (dedupNat_mem _ n).mp hn
      have hn3 := List.mem_of_mem_filter hn2
      obtain ⟨kv2, hkv2, hin2⟩ := List.mem_flatMap.mp hn3
      obtain ⟨kv, hkv, he2⟩ := List.mem_map.mp hkv2
      rw [← he2] at hin2
      have hin3 : n ∈ kv.2.filter (· ≠ kv.1) := hin2
      have hne : n ≠ kv.1 := by
        have := List.of_mem_filter hin3
        simpa using this
      have hin4 : n ∈ kv.2 := List.mem_of_mem_filter hin3
      have hnk : n = k := by simpa using he
      subst hnk
      exact ⟨kv, hkv, hin4, hne⟩
  · rintro (hk | ⟨kv, hkv, hin, hne⟩)
    · left
      obtain ⟨kv, hkv, he⟩ := List.mem_map.mp hk
      exact List.mem_map.mpr ⟨kv, hkv, he⟩
    · by_cases hkey : k ∈ data.map (·.1)
      · left
        obtain ⟨kv2, hkv2, he⟩ := List.mem_map.mp hkey
        exact List.mem_map.mpr ⟨kv2, hkv2, he⟩
      · right
        refine List.mem_map.mpr ⟨k, ?_, rfl⟩
        rw [dedupNat_mem]
        refine List.mem_filter.mpr ⟨?_, ?_⟩
        · refine List.mem_flatMap.mpr
            ⟨(kv.1, kv.2.filter (· ≠ kv.1)),
              List.mem_map.mpr ⟨kv, hkv, rfl⟩, ?_⟩
          exact List.mem_filter.mpr ⟨hin, by simpa using hne⟩
        · have hkey2 : k ∉ (data.map
              (fun kv => (kv.1, kv.2.filter (· ≠ kv.1)))).map (·.1) := by
            intro hc
            rw [List.map_map] at hc
            obtain ⟨kv2, hkv2, he⟩ := List.mem_map.mp hc
            exact hkey (List.mem_map.mpr ⟨kv2, hkv2, he⟩)
          simpa using hkey2

/-- The vertex set of the layering graph, in terms of the table: a row
participates iff it has predecessors or is someone's predecessor. -/
theorem getGraph_nodes (rows : List Row)
    (hnd : (rows.map (·.hash)).Nodup) (k : Nat) (r : Row)
    (hr : lookupRow rows k = some r) :
    (k ∈ (topoPrep (getGraph rows)).map (·.1))
      ↔ (r.after ≠ [] ∨ k ∈ referencedIds rows) := by
  rw [topoPrep_keys]
  constructor
  · rintro (hk | ⟨kv, hkv, hin, hne⟩)
    · left
      rw [getGraph, List.map_map] at hk
      obtain ⟨r2, hr2, he⟩ := List.mem_map.mp hk
      have hr2h : r2.hash = k := by simpa using he
      have hl2 : lookupRow rows k = some r2 := by
        rw [← hr2h]
        exact lookupRow_self hnd (List.mem_of_mem_filter hr2)
      rw [hr] at hl2
      injection hl2 with hl3
      rw [hl3]
      have hr2a := List.of_mem_filter hr2
      intro hemp
      rw [hemp] at hr2a
      simp at hr2a
    · right
      rw [getGraph] at hkv
      obtain ⟨r2, hr2, he⟩ := List.mem_map.mp hkv
      rw [referencedIds]
      refine List.mem_flatMap.mpr ⟨r2, hr2, ?_⟩
      rw [← he] at hin
      exact hin
  · rintro (ha | href)
    · left
      rw [getGraph, List.map_map]
      refine List.mem_map.mpr ⟨r, List.mem_filter.mpr
        ⟨lookupRow_mem hr, by simpa [List.isEmpty_iff] using ha⟩, ?_⟩
      simpa using lookupRow_hash hr
    · rw [referencedIds] at href
      obtain ⟨r2, hr2, hin⟩ := List.mem_flatMap.mp href
      by_cases hq : r2.hash = k
      · left
        rw [getGraph, List.map_map]
        refine List.mem_map.mpr ⟨r2, hr2, ?_⟩
        simpa using hq
      · right
        exact ⟨(r2.hash, r2.after),
          (by rw [getGraph]; exact List.mem_map.mpr ⟨r2, hr2, rfl⟩),
          hin, fun he => hq he.symm⟩

theorem referencedIds_congr :
    ∀ {s1 s2 : List Row}, List.Forall₂ (fun a b => a.after = b.after) s1 s2 →
      referencedIds s1 = referencedIds s2 := by
  intro s1 s2 hf
  induction hf with
  | nil => rfl
  | cons hab htail ih =>
    simp only [referencedIds] at ih ⊢
    rw [List.filter_cons, List.filter_cons, hab]
    split
    · rw [List.flatMap_cons, List.flatMap_cons, hab, ih]
    · exact ih

theorem forallTwo_of_get? {α β : Type} (R : α → β → Prop) :
    ∀ (l1 : List α) (l2 : List β), l1.length = l2.length →
      (∀ k a b, l1.get? k = some a → l2.get? k = some b → R a b) →
      List.Forall₂ R l1 l2 := by
  intro l1
  induction l1 with
  | nil =>
    intro l2 hlen _
    cases l2 with
    | nil => exact List.Forall₂.nil
    | cons b t => simp at hlen
  | cons a t ih =>
    intro l2 hlen hp
    cases l2 with
    | nil => simp at hlen
    | cons b t2 =>
      refine List.Forall₂.cons (hp 0 a b rfl rfl) (ih t2 ?_ ?_)
      · simpa using hlen
      · intro k x y hx hy
        exact hp (k + 1) x y (by simpa using hx) (by simpa using hy)

/-- C8, amended.  With ids equal to 1-based positions, no pre-existing
`Res` values and `After` entries referencing table ids, a successful
layering run gives a row a `Res` value iff it participates in the
graph — it has predecessors or is someone's predecessor — and the
`+1000` post-pass offset lands exactly on the unranked rows that have
predecessors but are nobody's predecessor; rows with no edges at all
get no `Res` and no offset. -/
theorem c8_shift_characterization (rows : List Row)
    (hpos : rows.map (·.hash) = List.range' 1 rows.length)
    (hres0 : ∀ r ∈ rows, r.res = none)
    (hafter : ∀ r ∈ rows, ∀ a ∈ r.after, a ∈ rows.map (·.hash))
    (s : List Row) (hs : setApproxPos rows = .ok s) :
    ∀ k r, rows.get? k = some r →
      ∃ r', s.get? k = some r'
        ∧ (shiftRows s).get? k = some (shiftRow (referencedIds rows) r')
        ∧ r'.hash = r.hash ∧ r'.rank = r.rank ∧ r'.after = r.after
        ∧ (r'.res.isSome = true
            ↔ (r.after ≠ [] ∨ r.hash ∈ referencedIds rows))
        ∧ (r.rank = none → r.after ≠ [] → r.hash ∉ referencedIds rows →
            ∃ v, r'.res = some v
              ∧ shiftRow (referencedIds rows) r'
                  = { r' with res := some (v + 1000) })
        ∧ ((r.hash ∈ referencedIds rows ∨ r.after = [] ∨ r.rank ≠ none) →
            shiftRow (referencedIds rows) r' = r') := by
  have hnd : (rows.map (·.hash)).Nodup := by
    rw [hpos]
    exact List.nodup_range' 1 rows.length 1 (by omega)
  unfold setApproxPos at hs
  cases hT : toposortModel (getGraph rows) with
  | error e => rw [hT] at hs; simp at hs
  | ok layers =>
    rw [hT] at hs
    simp only [exceptBind_ok] at hs
    cases hF : layers.foldlM
        (fun (acc : List Row × Int) layer => do
          let s2 ← layer.foldlM (fun s h => setResAt s h acc.2) acc.1
          pure (s2, acc.2 + 1)) (rows, (1 : Int)) with
    | error e => rw [hF] at hs; simp at hs
    | ok out =>
      rw [hF] at hs
      simp only [exceptBind_ok] at hs
      have hsout : out.1 = s := by
        have hs2 : Except.ok (ε := SortErr) out.1 = .ok s := hs
        injection hs2
      have hloop : topoLoop ((topoPrep (getGraph rows)).length + 1)
          (topoPrep (getGraph rows)) [] = .ok layers := by
        simpa [toposortModel] using hT
      have hnodes_sub : ∀ k2, k2 ∈ (topoPrep (getGraph rows)).map (·.1) →
          k2 ∈ rows.map (·.hash) := by
        intro k2 hk2
        rw [topoPrep_keys] at hk2
        rcases hk2 with hk2 | ⟨kv, hkv, hin, _⟩
        · rw [getGraph, List.map_map] at hk2
          obtain ⟨r2, hr2, he⟩ := List.mem_map.mp hk2
          have hr2h : r2.hash = k2 := by simpa using he
          rw [← hr2h]
          exact List.mem_map.mpr ⟨r2, List.mem_of_mem_filter hr2, rfl⟩
        · rw [getGraph] at hkv
          obtain ⟨r2, hr2, he⟩ := List.mem_map.mp hkv
          rw [← he] at hin
          exact hafter r2 (List.mem_of_mem_filter hr2) k2 hin
      have hval : ∀ layer ∈ layers, ∀ h2 ∈ layer, 1 ≤ h2 := by
        intro layer hlay h2 hh2
        rcases topoLoop_layers_sub _ _ _ layers hloop layer hlay with
          hacc | hsub
        · cases hacc
        · have hmemr : h2 ∈ rows.map (·.hash) := hnodes_sub h2 (hsub h2 hh2)
          rw [hpos, List.mem_range'_1] at hmemr
          omega
      obtain ⟨hlen, hchar⟩ := layersFold_res layers rows 1 out hval hF
      intro k r hr
      obtain ⟨r', hr', hh, hrk, ha, hres⟩ := hchar k r hr
      rw [hsout] at hr'
      have hklt : k < rows.length := by
        by_contra hcon
        rw [List.get?_eq_getElem?, List.getElem?_eq_none (by omega)] at hr
        cases hr
      have hky : r.hash = k + 1 := by
        have h1 : (rows.map (·.hash)).get? k = some r.hash := by
          rw [List.get?_eq_getElem?, List.getElem?_map,
            ← List.get?_eq_getElem?, hr]
          rfl
        rw [hpos, List.get?_eq_getElem?, List.getElem?_range' 1 1 hklt] at h1
        injection h1 with h2
        omega
      have hlk : lookupRow rows (k + 1) = some r := by
        rw [← hky]
        exact lookupRow_self hnd (List.get?_mem hr)
      have hmem_iff : (k + 1) ∈ layers.flatten
          ↔ (r.after ≠ [] ∨ (k + 1) ∈ referencedIds rows) := by
        rw [← getGraph_nodes rows hnd (k + 1) r hlk]
        constructor
        · intro hfl
          obtain ⟨l, hl, hkl⟩ := List.mem_flatten.mp hfl
          rcases topoLoop_layers_sub _ _ _ layers hloop l hl with hacc | hsub
          · cases hacc
          · exact hsub _ hkl
        · intro hnode
          obtain ⟨l, hl, hkl⟩ :=
            topoLoop_covers _ _ _ layers hloop (k + 1) hnode
          exact List.mem_flatten.mpr ⟨l, hl, hkl⟩
      rw [← hky] at hres hmem_iff
      have hres_iff : r'.res.isSome = true
          ↔ (r.after ≠ [] ∨ r.hash ∈ referencedIds rows) := by
        rw [← hmem_iff]
        by_cases hm : r.hash ∈ layers.flatten
        · rw [if_pos hm] at hres
          obtain ⟨v, hv⟩ := hres
          simp [hv, hm]
        · rw [if_neg hm] at hres
          rw [hres, hres0 r (List.get?_mem hr)]
          simp [hm]
      have hrefeq : referencedIds s = referencedIds rows := by
        refine referencedIds_congr (forallTwo_of_get? _ s rows ?_ ?_)
        · rw [← hsout, hlen]
        · intro k2 a b hsa hrb
          obtain ⟨r2', hr2', _, _, ha2, _⟩ := hchar k2 b hrb
          rw [hsout, hsa] at hr2'
          injection hr2' with he2
          rw [he2]
          exact ha2
      have hshift : (shiftRows s).get? k
          = some (shiftRow (referencedIds rows) r') := by
        rw [shiftRows, List.get?_eq_getElem?, List.getElem?_map,
          ← List.get?_eq_getElem?, hr', hrefeq]
        rfl
      refine ⟨r', hr', hshift, hh, hrk, ha, hres_iff, ?_, ?_⟩
      · intro hrknone hane hnotref
        have hsome : r'.res.isSome = true := hres_iff.mpr (Or.inl hane)
        obtain ⟨v, hv⟩ := Option.isSome_iff_exists.mp hsome
        refine ⟨v, hv, ?_⟩
        have hcont : ((referencedIds rows).contains r'.hash) = false := by
          rw [hh]
          simpa using hnotref
        have h1 : r'.rank = none := by
          rw [hrk]
          exact hrknone
        rw [shiftRow, if_pos (by simp [hh, hnotref])]
        rw [hv, h1]
      · intro hcases
        rw [shiftRow]
        by_cases hcont : ((referencedIds rows).contains r'.hash) = true
        · rw [if_neg (fun hc => hc hcont)]
        · have hnotref : r.hash ∉ referencedIds rows := by
            intro hc
            apply hcont
            rw [hh]
            simpa using hc
          rw [if_pos hcont]
          rcases hcases with hrefc | hac | hrkc
          · exact absurd hrefc hnotref
          · have hfalse : r'.res.isSome = false := by
              cases hiq : r'.res.isSome
              · rfl
              · exfalso
                rcases hres_iff.mp hiq with hx | hx
                · exact hx hac
                · exact hnotref hx
            have hnone : r'.res = none := by
              cases hvq : r'.res with
              | none => rfl
              | some v => rw [hvq] at hfalse; cases hfalse
            rw [hnone]
          · have hw : ∃ w, r'.rank = some w := by
              rw [hrk]
              cases hrq : r.rank with
              | none => exact absurd hrq hrkc
              | some w => exact ⟨w, rfl⟩
            obtain ⟨w, hw2⟩ := hw
            rw [hw2]
            cases hresq : r'.res with
            | none => rfl
            | some v => rfl

/-- C8, amended, witness: in `evidenceRows`, row `#2` (at position 1)
is unranked, has a predecessor and is nobody's predecessor, so its
layer value gets the +1000 offset; the edge-free `#3` falls under the
no-`Res` side of the characterization. -/
theorem c8_shift_characterization_witness :
    ∃ r', evidenceResolved.get? 1 = some r'
      ∧ (shiftRows evidenceResolved).get? 1
          = some (shiftRow (referencedIds evidenceRows) r')
      ∧ r'.hash = 2 ∧ r'.rank = none ∧ r'.after = [1]
      ∧ (r'.res.isSome = true
          ↔ (([1] : List Nat) ≠ [] ∨ 2 ∈ referencedIds evidenceRows))
      ∧ ((none : Option Int) = none → ([1] : List Nat) ≠ [] →
          2 ∉ referencedIds evidenceRows →
          ∃ v, r'.res = some v
            ∧ shiftRow (referencedIds evidenceRows) r'
                = { r' with res := some (v + 1000) })
      ∧ ((2 ∈ referencedIds evidenceRows ∨ ([1] : List Nat) = []
            ∨ (none : Option Int) ≠ none) →
          shiftRow (referencedIds evidenceRows) r' = r') :=
  c8_shift_characterization evidenceRows (by decide) (by decide) (by decide)
    evidenceResolved (by decide) 1 { hash := 2, year := 1980, after := [1] }
    (by decide)

/-- C8, counterexample.  In `evidenceRows`, item `#2` has the incoming
edge `#1 → #2` (so it is not evidence-free) yet receives the +1000
offset, because the post-pass keys on "mentioned in nobody's `After`",
i.e. on having no *outgoing* edge only; item `#3` has no edges at all
and no rank — the claim says exactly it gets the offset and a layer
greater than every evidenced item — yet it receives no layer at all
(`Res` stays unset), because the toposort only yields vertices that
participate in some edge. -/
theorem c8_counterexample :
    evidenceOut.map (fun l => l.map (fun r => (r.hash, r.res)))
      = .ok [(1, some 1), (2, some 1002), (3, none)]
    ∧ evidenceRows.map (fun r => (r.hash, r.after, r.rank))
      = [(1, [], some 1001), (2, [1], none), (3, [], none)] := by
  constructor
  · decide
  · decide

end Tspdt
